import Mathlib

/-!
Verification of the swimmers SWIM-membership core.

This file gives a shallow embedding of the membership state engine
(`node.rs`, `node_set.rs`, `ping.rs`, `suspicions.rs`, `awareness.rs`,
`scheduler/suspicion.rs`) and proves the spec's claims about it.

Modelling conventions:
  - `SocketAddr` is modelled as a natural number (the code only compares,
    hashes and stores addresses).
  - Rust `u64`/`u32`/`usize` counters are modelled as `Nat`: the embedded
    operations only compare them or increment them, so no wrap-around
    behaviour is observable in any claim.
  - `HashMap` is modelled as an association list with unique keys
    (`lookupA` / `insertA` / `eraseA` below); `HashSet` as a `Finset`.
  - `Vec` stacks are modelled as lists whose head is the top of the stack
    (Rust `Vec::pop` removes the back element; we store the stack reversed).
  - the PRNG-driven `shuffle` from the external `rand` crate is a parameter;
    its only relevant property (it permutes its input) is a hypothesis where
    needed.
-/

namespace Swimmers

abbrev SocketAddr := Nat

/-! Association-list model of HashMap. `insertA` replaces any existing
binding and `eraseA` removes it, matching HashMap insert/remove. -/

def lookupA {V : Type} (k : Nat) : List (Nat × V) → Option V
  | [] => none
  | (k2, v) :: t => if k2 = k then some v else lookupA k t

def eraseA {V : Type} (k : Nat) (l : List (Nat × V)) : List (Nat × V) :=
  l.filter (fun p => p.1 != k)

def insertA {V : Type} (k : Nat) (v : V) (l : List (Nat × V)) : List (Nat × V) :=
  (k, v) :: eraseA k l

theorem lookupA_nil {V : Type} (k : Nat) : lookupA (V := V) k [] = none := rfl

theorem lookupA_cons {V : Type} (k k2 : Nat) (v : V) (t : List (Nat × V)) :
    lookupA k ((k2, v) :: t) = if k2 = k then some v else lookupA k t := rfl

theorem eraseA_cons {V : Type} (k k2 : Nat) (v : V) (t : List (Nat × V)) :
    eraseA k ((k2, v) :: t) = if k2 = k then eraseA k t else (k2, v) :: eraseA k t := by
  by_cases h : k2 = k <;> simp [eraseA, List.filter_cons, h]

theorem lookupA_eraseA_self {V : Type} (k : Nat) (l : List (Nat × V)) :
    lookupA k (eraseA k l) = none := by
  induction l with
  | nil => rfl
  | cons p t ih =>
    obtain ⟨k2, v⟩ := p
    by_cases h : k2 = k <;> simp [eraseA_cons, lookupA, h, ih]

theorem lookupA_eraseA_ne {V : Type} {k k2 : Nat} (h : k2 ≠ k) (l : List (Nat × V)) :
    lookupA k2 (eraseA k l) = lookupA k2 l := by
  induction l with
  | nil => rfl
  | cons p t ih =>
    obtain ⟨k3, v⟩ := p
    by_cases h3 : k3 = k
    · subst h3
      simp [eraseA_cons, lookupA, Ne.symm h, ih]
    · by_cases h2 : k3 = k2 <;> simp [eraseA_cons, lookupA, h3, h2, h, ih]

theorem lookupA_insertA_self {V : Type} (k : Nat) (v : V) (l : List (Nat × V)) :
    lookupA k (insertA k v l) = some v := by
  simp [insertA, lookupA]

theorem lookupA_insertA_ne {V : Type} {k k2 : Nat} (h : k2 ≠ k) (v : V) (l : List (Nat × V)) :
    lookupA k2 (insertA k v l) = lookupA k2 l := by
  simp [insertA, lookupA, Ne.symm h, lookupA_eraseA_ne h]

theorem mem_eraseA {V : Type} {k : Nat} {p : Nat × V} {l : List (Nat × V)} :
    p ∈ eraseA k l ↔ p ∈ l ∧ p.1 ≠ k := by
  simp [eraseA]

theorem mem_insertA {V : Type} {k : Nat} {v : V} {p : Nat × V} {l : List (Nat × V)} :
    p ∈ insertA k v l ↔ p = (k, v) ∨ (p ∈ l ∧ p.1 ≠ k) := by
  simp [insertA, mem_eraseA]

theorem mem_of_lookupA {V : Type} {k : Nat} {v : V} {l : List (Nat × V)}
    (h : lookupA k l = some v) : (k, v) ∈ l := by
  induction l with
  | nil => simp [lookupA] at h
  | cons p t ih =>
    obtain ⟨k2, v2⟩ := p
    by_cases h2 : k2 = k
    · subst h2
      simp [lookupA] at h
      simp [h]
    · simp [lookupA, h2] at h
      simp [ih h]

/-- Keys of an association list. -/
def keysA {V : Type} (l : List (Nat × V)) : List Nat := l.map Prod.fst

theorem keysA_eraseA_sublist {V : Type} (k : Nat) (l : List (Nat × V)) :
    (keysA (eraseA k l)).Sublist (keysA l) :=
  List.Sublist.map Prod.fst (List.filter_sublist l)

theorem not_mem_keysA_eraseA {V : Type} (k : Nat) (l : List (Nat × V)) :
    k ∉ keysA (eraseA k l) := by
  intro h
  simp [keysA, eraseA] at h

theorem keysA_nodup_eraseA {V : Type} {k : Nat} {l : List (Nat × V)}
    (h : (keysA l).Nodup) : (keysA (eraseA k l)).Nodup :=
  (keysA_eraseA_sublist k l).nodup h

theorem keysA_nodup_insertA {V : Type} {k : Nat} {v : V} {l : List (Nat × V)}
    (h : (keysA l).Nodup) : (keysA (insertA k v l)).Nodup := by
  simp only [insertA, keysA, List.map_cons, List.nodup_cons]
  exact ⟨not_mem_keysA_eraseA k l, keysA_nodup_eraseA h⟩

theorem lookupA_eq_none_iff {V : Type} {k : Nat} {l : List (Nat × V)} :
    lookupA k l = none ↔ k ∉ keysA l := by
  induction l with
  | nil => simp [lookupA, keysA]
  | cons p t ih =>
    obtain ⟨k2, v⟩ := p
    by_cases h2 : k2 = k
    · subst h2
      simp [lookupA, keysA]
    · simp [lookupA, keysA, h2, ih]
      tauto

theorem lookupA_of_mem_nodup {V : Type} {k : Nat} {v : V} {l : List (Nat × V)}
    (hnd : (keysA l).Nodup) (h : (k, v) ∈ l) : lookupA k l = some v := by
  induction l with
  | nil => simp at h
  | cons p t ih =>
    obtain ⟨k2, v2⟩ := p
    simp only [keysA, List.map_cons, List.nodup_cons] at hnd
    rcases List.mem_cons.mp h with h1 | h1
    · obtain ⟨rfl, rfl⟩ := Prod.mk.injEq .. ▸ (by exact Prod.mk.inj h1.symm : k2 = k ∧ v2 = v)
      simp [lookupA]
    · have hk : k2 ≠ k := by
        rintro rfl
        exact hnd.1 (by simp [keysA]; exact ⟨v, h1⟩)
      simp [lookupA, hk]
      exact ih (by simpa [keysA] using hnd.2) h1

/-! NodeState (node.rs). -/

/-- The state of a Node. `Alive`, `Suspect` and `Dead` carry the node's
incarnation number (`u64`, modelled as `Nat`); `Left` carries none. -/
inductive NodeState
  | alive (i : Nat)
  | suspect (i : Nat)
  | dead (i : Nat)
  | left
deriving DecidableEq, Repr

/-- Translation of `impl Ord for NodeState` in node.rs. The Rust `match`
first tests `i == j` (structural equality), then tries each guarded arm
in source order; every unmatched pair falls through to `Less`. -/
def NodeState.cmp (s o : NodeState) : Ordering :=
  if s = o then .eq
  else
    match s, o with
    | .alive i, .alive j => if i > j then .gt else .lt
    | .alive i, .suspect j => if i > j then .gt else .lt
    | .alive i, .dead j => if i > j then .gt else .lt
    | .suspect i, .alive j => if i ≥ j then .gt else .lt
    | .suspect i, .suspect j => if i > j then .gt else .lt
    | .suspect i, .dead j => if i > j then .gt else .lt
    | .dead i, .alive j => if i ≥ j then .gt else .lt
    | .dead i, .suspect j => if i ≥ j then .gt else .lt
    | .dead i, .dead j => if i > j then .gt else .lt
    | .left, _ => .gt
    | _, _ => .lt

/-- Translation of `NodeState::incarnation` in node.rs. -/
def NodeState.incarnation : NodeState → Option Nat
  | .alive i => some i
  | .suspect i => some i
  | .dead i => some i
  | .left => none

theorem NodeState.cmp_eq_iff (x y : NodeState) : x.cmp y = .eq ↔ x = y := by
  cases x <;> cases y <;> simp [NodeState.cmp]

theorem NodeState.cmp_swap (x y : NodeState) : y.cmp x = (x.cmp y).swap := by
  cases x <;> cases y <;> simp [NodeState.cmp, Ordering.swap] <;>
    (try split_ifs) <;> (try simp_all [Ordering.swap]) <;> omega

theorem NodeState.cmp_gt_trans {x y z : NodeState}
    (h1 : x.cmp y = .gt) (h2 : y.cmp z = .gt) : x.cmp z = .gt := by
  revert h1 h2
  cases x <;> cases y <;> cases z <;> simp [NodeState.cmp] <;> omega

/-- C1: NodeState.cmp is a strict total order on NodeState values: cmp
returns Equal exactly on equal values (Left versus Left included); Left is
strictly greater than every non-Left state; between two non-Left states the
one with the higher incarnation is strictly greater; at equal incarnation
Dead > Suspect > Alive; and for all triples cmp is transitive while
cmp x y is the reverse of cmp y x. -/
theorem C1_nodestate_cmp_strict_total_order :
    (∀ x y : NodeState, x.cmp y = .eq ↔ x = y) ∧
    (∀ y : NodeState, y ≠ .left → NodeState.cmp .left y = .gt) ∧
    (∀ x y : NodeState, ∀ i j : Nat, x.incarnation = some i →
      y.incarnation = some j → j < i → x.cmp y = .gt) ∧
    (∀ i : Nat, (NodeState.dead i).cmp (.suspect i) = .gt ∧
      (NodeState.suspect i).cmp (.alive i) = .gt ∧
      (NodeState.dead i).cmp (.alive i) = .gt) ∧
    (∀ x y z : NodeState, x.cmp y = .gt → y.cmp z = .gt → x.cmp z = .gt) ∧
    (∀ x y : NodeState, y.cmp x = (x.cmp y).swap) := by
  refine ⟨NodeState.cmp_eq_iff, ?_, ?_, ?_,
    fun x y z h1 h2 => NodeState.cmp_gt_trans h1 h2,
    fun x y => NodeState.cmp_swap x y⟩
  · intro y hy
    cases y <;> simp_all [NodeState.cmp]
  · intro x y i j hx hy hlt
    cases x <;> cases y <;> simp_all [NodeState.incarnation, NodeState.cmp] <;> omega
  · intro i
    refine ⟨?_, ?_, ?_⟩ <;> simp [NodeState.cmp]

/-- Witness for C1: the hypotheses of each conditional conjunct are
discharged at concrete states (the states of scenario S1). -/
theorem C1_nodestate_cmp_strict_total_order_witness :
    (NodeState.alive 1000000000 ≠ .left ∧
      NodeState.cmp .left (.alive 1000000000) = .gt) ∧
    ((NodeState.alive 2).incarnation = some 2 ∧
      (NodeState.dead 1).incarnation = some 1 ∧ (1 : Nat) < 2 ∧
      (NodeState.alive 2).cmp (.dead 1) = .gt) ∧
    ((NodeState.dead 1).cmp (.suspect 1) = .gt ∧
      (NodeState.suspect 1).cmp (.alive 1) = .gt ∧
      (NodeState.dead 1).cmp (.alive 1) = .gt) := by
  refine ⟨⟨by decide, C1_nodestate_cmp_strict_total_order.2.1 _ (by decide)⟩,
    ⟨by decide, by decide, by decide,
      C1_nodestate_cmp_strict_total_order.2.2.1 _ _ 2 1 (by decide) (by decide)
        (by decide)⟩,
    by decide, by decide,
    C1_nodestate_cmp_strict_total_order.2.2.2.2.1 (NodeState.dead 1)
      (.suspect 1) (.alive 1) (by decide) (by decide)⟩

/-! Node and NodeSet (node.rs, node_set.rs). -/

/-- A node in a swim cluster: address, state and optional metadata
(an opaque byte blob, modelled as a list of naturals). -/
structure Node where
  addr : SocketAddr
  state : NodeState
  metadata : Option (List Nat)
deriving DecidableEq, Repr

/-- Result of `NodeSet::insert`. The Rust variants carry a reference to the
stored node; the model carries the stored node by value. -/
inductive InsertionResult
  | unchanged
  | equal (n : Node)
  | updated (n : Node)
  | inserted (n : Node)
deriving DecidableEq, Repr

/-- NodeSet (node_set.rs): HashMap as association list, the shuffled
Vec stack as a list whose head is the top (Rust pops from the back),
and the PRNG as an abstract Nat state threaded through `shuffle`. -/
structure NodeSet where
  map : List (SocketAddr × Node)
  stack : List SocketAddr
  rng : Nat
deriving DecidableEq, Repr

def NodeSet.contains (ns : NodeSet) (addr : SocketAddr) : Bool :=
  (lookupA addr ns.map).isSome

/-- Translation of `NodeSet::insert`: on a vacant entry insert the node; on
an occupied entry compare `node.state` with the stored state and replace
only on `Greater`. -/
def NodeSet.insert (ns : NodeSet) (node : Node) : InsertionResult × NodeSet :=
  match lookupA node.addr ns.map with
  | none => (.inserted node, { ns with map := insertA node.addr node ns.map })
  | some current =>
    match node.state.cmp current.state with
    | .lt => (.unchanged, ns)
    | .eq => (.equal current, ns)
    | .gt => (.updated node, { ns with map := insertA node.addr node ns.map })

/-- Translation of `NodeSet::remove`: removes the map entry only;
the stack is not touched. -/
def NodeSet.remove (ns : NodeSet) (addr : SocketAddr) : Option Node × NodeSet :=
  (lookupA addr ns.map, { ns with map := eraseA addr ns.map })

/-- The maximum of two node states under the NodeState order. -/
def NodeState.maxOf (x y : NodeState) : NodeState :=
  match x.cmp y with
  | .lt => y
  | _ => x

/-- C2: after NodeSet::insert(n) the stored state for n.addr is
max(previous stored state, n.state) under the NodeState order, and the
returned value classifies the case exactly: Inserted when no entry existed,
Updated (record replaced by n) when n.state is strictly greater, Unchanged
(record untouched) when strictly less, Equal when the states compare equal. -/
theorem C2_nodeset_insert_merge_monotone (ns : NodeSet) (n : Node) :
    (lookupA n.addr ns.map = none →
      (ns.insert n).1 = .inserted n ∧
      lookupA n.addr (ns.insert n).2.map = some n) ∧
    (∀ cur, lookupA n.addr ns.map = some cur →
      ((lookupA n.addr (ns.insert n).2.map).map Node.state =
        some (NodeState.maxOf cur.state n.state)) ∧
      (n.state.cmp cur.state = .gt →
        (ns.insert n).1 = .updated n ∧
        lookupA n.addr (ns.insert n).2.map = some n) ∧
      (n.state.cmp cur.state = .lt →
        (ns.insert n).1 = .unchanged ∧ (ns.insert n).2 = ns) ∧
      (n.state.cmp cur.state = .eq →
        (ns.insert n).1 = .equal cur ∧ (ns.insert n).2 = ns)) := by
  constructor
  · intro h
    simp [NodeSet.insert, h, lookupA_insertA_self]
  · intro cur h
    have hswap := NodeState.cmp_swap n.state cur.state
    rcases hc : n.state.cmp cur.state with _ | _ | _ <;>
      simp [NodeSet.insert, h, hc, lookupA_insertA_self, NodeState.maxOf,
        hc ▸ hswap, Ordering.swap]

/-- Witness for C2 at concrete inputs: an occupied entry being updated by a
strictly greater state. -/
theorem C2_nodeset_insert_merge_monotone_witness :
    (lookupA 7 (NodeSet.mk [(7, ⟨7, .alive 1, none⟩)] [] 0).map =
      some ⟨7, .alive 1, none⟩) ∧
    ((NodeSet.mk [(7, ⟨7, .alive 1, none⟩)] [] 0).insert
        ⟨7, .suspect 1, none⟩).1 = .updated ⟨7, .suspect 1, none⟩ := by
  refine ⟨by decide, ?_⟩
  exact ((C2_nodeset_insert_merge_monotone (NodeSet.mk [(7, ⟨7, .alive 1, none⟩)] [] 0)
    ⟨7, .suspect 1, none⟩).2 ⟨7, .alive 1, none⟩ (by decide)).2.1 (by decide) |>.1

/-- C10: when insert returns Unchanged or Equal the stored record (its
metadata included) is left exactly as it was: the whole NodeSet is
unchanged. The stored metadata changes only in the Updated case (record
replaced by n) or the Inserted case (address absent). -/
theorem C10_nodeset_insert_frame (ns : NodeSet) (n : Node) (cur : Node)
    (h : lookupA n.addr ns.map = some cur) :
    (n.state.cmp cur.state ≠ .gt →
      (ns.insert n).2 = ns ∧ lookupA n.addr (ns.insert n).2.map = some cur) ∧
    ((ns.insert n).1 = .unchanged ∨ (ns.insert n).1 = .equal cur →
      (ns.insert n).2 = ns) ∧
    (n.state.cmp cur.state = .gt →
      lookupA n.addr (ns.insert n).2.map = some n) := by
  rcases hc : n.state.cmp cur.state with _ | _ | _ <;>
    simp [NodeSet.insert, h, hc, lookupA_insertA_self]

/-- Witness for C10: an insert with an equal state leaves the stored
record, metadata included, untouched. -/
theorem C10_nodeset_insert_frame_witness :
    (lookupA 7 (NodeSet.mk [(7, ⟨7, .alive 1, some [42]⟩)] [] 0).map =
      some ⟨7, .alive 1, some [42]⟩) ∧
    ((NodeSet.mk [(7, ⟨7, .alive 1, some [42]⟩)] [] 0).insert
      ⟨7, .alive 1, some [9]⟩).2 = NodeSet.mk [(7, ⟨7, .alive 1, some [42]⟩)] [] 0 := by
  refine ⟨by decide, ?_⟩
  exact ((C10_nodeset_insert_frame (NodeSet.mk [(7, ⟨7, .alive 1, some [42]⟩)] [] 0)
    ⟨7, .alive 1, some [9]⟩ ⟨7, .alive 1, some [42]⟩ (by decide)).1 (by decide)).1

/-! Random traversal (node_set.rs): counts, refill_stack, pop, Iter. -/

/-- The fold step of `NodeSet::counts`: bump the component matching the
entry's state. -/
def countsStep (acc : Nat × Nat × Nat × Nat) (p : SocketAddr × Node) :
    Nat × Nat × Nat × Nat :=
  match p.2.state with
  | .alive _ => (acc.1 + 1, acc.2.1, acc.2.2.1, acc.2.2.2)
  | .suspect _ => (acc.1, acc.2.1 + 1, acc.2.2.1, acc.2.2.2)
  | .dead _ => (acc.1, acc.2.1, acc.2.2.1 + 1, acc.2.2.2)
  | .left => (acc.1, acc.2.1, acc.2.2.1, acc.2.2.2 + 1)

/-- Translation of `NodeSet::counts`: population grouped as
(Alive, Suspect, Dead, Left). -/
def NodeSet.counts (ns : NodeSet) : Nat × Nat × Nat × Nat :=
  ns.map.foldl countsStep (0, 0, 0, 0)

/-- The list built by `refill_stack` before shuffling: the address of every
map value whose state is not Left. -/
def refillBase (map : List (SocketAddr × Node)) : List SocketAddr :=
  map.filterMap
    (fun p =>
      match p.2.state with
      | .left => none
      | _ => some p.2.addr)

/-- Translation of `NodeSet::refill_stack`: rebuild the stack from the
non-Left map values and shuffle it. `shuffle` abstracts the PRNG-driven
`SliceRandom::shuffle`; it consumes and returns the Nat rng state. -/
def NodeSet.refill_stack (shuffle : Nat → List SocketAddr → List SocketAddr × Nat)
    (ns : NodeSet) : NodeSet :=
  let s := shuffle ns.rng (refillBase ns.map)
  { ns with stack := s.1, rng := s.2 }

/-- Translation of `NodeSet::pop`: pop the top of the stack; when the stack
is empty refill it first, returning none if it is still empty. -/
def NodeSet.pop (shuffle : Nat → List SocketAddr → List SocketAddr × Nat)
    (ns : NodeSet) : Option SocketAddr × NodeSet :=
  match ns.stack with
  | a :: rest => (some a, { ns with stack := rest })
  | [] =>
    let ns2 := ns.refill_stack shuffle
    match ns2.stack with
    | [] => (none, ns2)
    | a :: rest => (some a, { ns2 with stack := rest })

/-- The iterator-local state of `Iter` (node_set.rs): the visited set, the
one-element look-ahead buffer `next_item`, and the frozen count of active
(non-Left) nodes. The borrowed NodeSet is threaded separately. -/
structure Iter where
  visited : Finset SocketAddr
  next_item : Option SocketAddr
  active_nodes : Nat
deriving DecidableEq

/-- Translation of `Iter::next`, fuelled. The outer `none` models both fuel
exhaustion and the `expect` panic when `pop` returns none; `some (o, ns, it)`
is one iterator step returning item `o`. -/
def NodeSet.iterNext (shuffle : Nat → List SocketAddr → List SocketAddr × Nat) :
    Nat → NodeSet → Iter → Option (Option SocketAddr × NodeSet × Iter)
  | 0, _, _ => none
  | fuel + 1, ns, it =>
    match ns.pop shuffle with
    | (none, _) => none
    | (some addr, ns2) =>
      if ns2.contains addr = false then NodeSet.iterNext shuffle fuel ns2 it
      else if addr ∉ it.visited then
        some (it.next_item, ns2, ⟨Insert.insert addr it.visited, some addr, it.active_nodes⟩)
      else if it.visited.card = it.active_nodes then
        some (it.next_item, ns2, ⟨it.visited, none, it.active_nodes⟩)
      else NodeSet.iterNext shuffle fuel ns2 it

/-- Translation of `NodeSet::iter_unique_random_addrs`, fuelled: pop until an
address still in the map is found (inner `some none` models the function
returning no iterator), then record it as visited and buffered and freeze
the active-node count. -/
def NodeSet.iter_unique_random_addrs
    (shuffle : Nat → List SocketAddr → List SocketAddr × Nat) :
    Nat → NodeSet → Option (Option (NodeSet × Iter))
  | 0, _ => none
  | fuel + 1, ns =>
    match ns.pop shuffle with
    | (none, _) => some none
    | (some addr, ns2) =>
      if ns2.contains addr then
        some (some (ns2, ⟨{addr}, some addr,
          ns2.counts.1 + ns2.counts.2.1 + ns2.counts.2.2.1⟩))
      else NodeSet.iter_unique_random_addrs shuffle fuel ns2

/-- Drive `Iter::next` until it returns none, collecting the yielded
addresses of one full traversal. -/
def NodeSet.runIter (shuffle : Nat → List SocketAddr → List SocketAddr × Nat) :
    Nat → NodeSet → Iter → Option (List SocketAddr × NodeSet × Iter)
  | 0, _, _ => none
  | fuel + 1, ns, it =>
    match NodeSet.iterNext shuffle (fuel + 1) ns it with
    | none => none
    | some (none, ns2, it2) => some ([], ns2, it2)
    | some (some a, ns2, it2) =>
      match NodeSet.runIter shuffle fuel ns2 it2 with
      | none => none
      | some (l, ns3, it3) => some (a :: l, ns3, it3)

/-- An identity shuffle (a permutation that moves nothing), used to
instantiate the abstract PRNG shuffle on concrete runs. -/
def idShuffle : Nat → List SocketAddr → List SocketAddr × Nat :=
  fun r l => (l, r)

/-- A node record participates in traversal iff its state is not Left. -/
def activeP (n : Node) : Bool :=
  match n.state with
  | .left => false
  | _ => true

/-- The map entries whose node is not Left. -/
def activeEntries (map : List (SocketAddr × Node)) : List (SocketAddr × Node) :=
  map.filter (fun p => activeP p.2)

/-- The keys of the non-Left map entries. -/
def activeKeys (map : List (SocketAddr × Node)) : List SocketAddr :=
  (activeEntries map).map Prod.fst

/-- Every map value records its own key as its address (true of every map
the Rust code builds, since insert keys each node by `node.addr`). -/
def keyConsistent (map : List (SocketAddr × Node)) : Prop :=
  ∀ p ∈ map, p.2.addr = p.1

/-- An address on the stack is stale (no longer in the map) or active. -/
def staleOrActive (map : List (SocketAddr × Node)) (a : SocketAddr) : Prop :=
  lookupA a map = none ∨ ∃ n, lookupA a map = some n ∧ activeP n = true

/-- Stack well-formedness: every stacked address is stale or active. -/
def stackOk (ns : NodeSet) : Prop :=
  ∀ a ∈ ns.stack, staleOrActive ns.map a

theorem refill_stack_map (shuffle : Nat → List SocketAddr → List SocketAddr × Nat)
    (ns : NodeSet) : (ns.refill_stack shuffle).map = ns.map := rfl

theorem refill_stack_stack (shuffle : Nat → List SocketAddr → List SocketAddr × Nat)
    (ns : NodeSet) :
    (ns.refill_stack shuffle).stack = (shuffle ns.rng (refillBase ns.map)).1 := rfl

theorem pop_map (shuffle : Nat → List SocketAddr → List SocketAddr × Nat)
    (ns : NodeSet) : (ns.pop shuffle).2.map = ns.map := by
  unfold NodeSet.pop
  rcases h : ns.stack with _ | ⟨a, rest⟩
  · rcases h2 : (ns.refill_stack shuffle).stack with _ | ⟨a, rest⟩ <;>
      simp [h, h2, refill_stack_map]
  · simp [h]

theorem pop_sound (shuffle : Nat → List SocketAddr → List SocketAddr × Nat)
    (ns : NodeSet) {a : SocketAddr} {ns2 : NodeSet}
    (h : ns.pop shuffle = (some a, ns2)) :
    a :: ns2.stack = ns.stack ∨
    a :: ns2.stack = (shuffle ns.rng (refillBase ns.map)).1 := by
  unfold NodeSet.pop NodeSet.refill_stack at h
  rcases hs : ns.stack with _ | ⟨b, rest⟩
  · rw [hs] at h
    dsimp only at h
    rcases h2 : (shuffle ns.rng (refillBase ns.map)).1 with _ | ⟨c, rest2⟩ <;>
      rw [h2] at h <;> simp at h
    right
    rcases h with ⟨rfl, rfl⟩
    simp [h2]
  · rw [hs] at h
    simp at h
    left
    rcases h with ⟨rfl, rfl⟩
    simp [hs]

theorem mem_refillBase {map : List (SocketAddr × Node)} {a : SocketAddr} :
    a ∈ refillBase map ↔ ∃ k n, (k, n) ∈ map ∧ activeP n = true ∧ n.addr = a := by
  simp only [refillBase, List.mem_filterMap]
  constructor
  · rintro ⟨⟨k, n⟩, hmem, hf⟩
    refine ⟨k, n, hmem, ?_⟩
    rcases hst : n.state <;> simp [hst] at hf <;> simp [activeP, hst, hf]
  · rintro ⟨k, n, hmem, hact, haddr⟩
    refine ⟨(k, n), hmem, ?_⟩
    rcases hst : n.state <;> simp [activeP, hst] at hact ⊢ <;> exact haddr

theorem mem_activeKeys {map : List (SocketAddr × Node)} {a : SocketAddr} :
    a ∈ activeKeys map ↔ ∃ n, (a, n) ∈ map ∧ activeP n = true := by
  simp only [activeKeys, activeEntries, List.mem_map, List.mem_filter]
  constructor
  · rintro ⟨⟨k, n⟩, ⟨hmem, hact⟩, rfl⟩
    exact ⟨n, hmem, hact⟩
  · rintro ⟨n, hmem, hact⟩
    exact ⟨(a, n), ⟨hmem, hact⟩, rfl⟩

theorem activeKeys_nodup {map : List (SocketAddr × Node)}
    (h : (keysA map).Nodup) : (activeKeys map).Nodup := by
  have hsub : (activeKeys map).Sublist (keysA map) :=
    List.Sublist.map Prod.fst (List.filter_sublist map)
  exact hsub.nodup h

theorem staleOrActive_of_refillBase {map : List (SocketAddr × Node)} {a : SocketAddr}
    (hnd : (keysA map).Nodup) (hkc : keyConsistent map)
    (hb : a ∈ refillBase map) : staleOrActive map a := by
  rcases mem_refillBase.mp hb with ⟨k, n, hmem, hact, haddr⟩
  have hk : n.addr = k := hkc (k, n) hmem
  have : k = a := by rw [← hk, haddr]
  subst this
  exact Or.inr ⟨n, lookupA_of_mem_nodup hnd hmem, hact⟩

theorem pop_stackOk (shuffle : Nat → List SocketAddr → List SocketAddr × Nat)
    (hperm : ∀ r li, (shuffle r li).1.Perm li) {ns : NodeSet} {a : SocketAddr}
    {ns2 : NodeSet} (hnd : (keysA ns.map).Nodup) (hkc : keyConsistent ns.map)
    (hso : stackOk ns) (h : ns.pop shuffle = (some a, ns2)) :
    staleOrActive ns.map a ∧ stackOk ns2 := by
  have hmap : ns2.map = ns.map := by
    have := pop_map shuffle ns
    rw [h] at this
    exact this
  rcases pop_sound shuffle ns h with hc | hc
  · constructor
    · exact hso a (by rw [← hc]; exact List.mem_cons_self _ _)
    · intro b hb
      rw [hmap]
      exact hso b (by rw [← hc]; exact List.mem_cons_of_mem _ hb)
  · have hmem : ∀ b ∈ a :: ns2.stack, b ∈ refillBase ns.map := by
      intro b hb
      rw [hc] at hb
      exact ((hperm ns.rng (refillBase ns.map)).mem_iff).mp hb
    constructor
    · exact staleOrActive_of_refillBase hnd hkc (hmem a (List.mem_cons_self _ _))
    · intro b hb
      rw [hmap]
      exact staleOrActive_of_refillBase hnd hkc (hmem b (List.mem_cons_of_mem _ hb))

theorem active_of_contains {ns : NodeSet} {a : SocketAddr}
    (hsa : staleOrActive ns.map a) (hc : ns.contains a = true) :
    a ∈ (activeKeys ns.map).toFinset := by
  rcases hsa with hnone | ⟨n, hsome, hact⟩
  · simp [NodeSet.contains, hnone] at hc
  · rw [List.mem_toFinset, mem_activeKeys]
    exact ⟨n, mem_of_lookupA hsome, hact⟩

theorem sum3_countsStep (acc : Nat × Nat × Nat × Nat) (p : SocketAddr × Node) :
    (countsStep acc p).1 + (countsStep acc p).2.1 + (countsStep acc p).2.2.1 =
      acc.1 + acc.2.1 + acc.2.2.1 + (if activeP p.2 = true then 1 else 0) := by
  rcases h : p.2.state <;> simp [countsStep, activeP, h] <;> omega

theorem sum3_foldl_counts (l : List (SocketAddr × Node)) :
    ∀ acc : Nat × Nat × Nat × Nat,
      (l.foldl countsStep acc).1 + (l.foldl countsStep acc).2.1 +
        (l.foldl countsStep acc).2.2.1 =
      acc.1 + acc.2.1 + acc.2.2.1 + (activeEntries l).length := by
  induction l with
  | nil => intro acc; simp [activeEntries]
  | cons p t ih =>
    intro acc
    have hstep := sum3_countsStep acc p
    by_cases hact : activeP p.2 = true <;>
      simp [List.foldl_cons, ih (countsStep acc p), hstep, activeEntries,
        List.filter_cons, hact] <;> omega

theorem counts_sum3 {ns : NodeSet} (hnd : (keysA ns.map).Nodup) :
    ns.counts.1 + ns.counts.2.1 + ns.counts.2.2.1 =
      (activeKeys ns.map).toFinset.card := by
  have h1 := sum3_foldl_counts ns.map (0, 0, 0, 0)
  have h2 : (activeKeys ns.map).toFinset.card = (activeKeys ns.map).length :=
    List.toFinset_card_of_nodup (activeKeys_nodup hnd)
  have h3 : (activeKeys ns.map).length = (activeEntries ns.map).length :=
    List.length_map _ _
  simp only [NodeSet.counts]
  simp only [show ((0, 0, 0, 0) : Nat × Nat × Nat × Nat).1 = 0 from rfl,
    show ((0, 0, 0, 0) : Nat × Nat × Nat × Nat).2.1 = 0 from rfl,
    show ((0, 0, 0, 0) : Nat × Nat × Nat × Nat).2.2.1 = 0 from rfl] at h1
  omega

/-- The invariant maintained between iterator steps: the map is a well-keyed
unique-key map, the stack holds only stale or active addresses, the visited
set holds only active addresses, the frozen active count matches the map, and
the look-ahead buffer is a visited address (or none only once the visited set
is complete). -/
def Good (ns : NodeSet) (it : Iter) : Prop :=
  (keysA ns.map).Nodup ∧ keyConsistent ns.map ∧ stackOk ns ∧
  it.visited ⊆ (activeKeys ns.map).toFinset ∧
  it.active_nodes = (activeKeys ns.map).toFinset.card ∧
  (match it.next_item with
   | some b => b ∈ it.visited
   | none => it.visited.card = it.active_nodes)

theorem iterNext_spec (shuffle : Nat → List SocketAddr → List SocketAddr × Nat)
    (hperm : ∀ r li, (shuffle r li).1.Perm li) :
    ∀ (fuel : Nat) (ns : NodeSet) (it : Iter) (out : Option SocketAddr)
      (ns2 : NodeSet) (it2 : Iter), Good ns it →
      NodeSet.iterNext shuffle fuel ns it = some (out, ns2, it2) →
      ns2.map = ns.map ∧ out = it.next_item ∧ Good ns2 it2 ∧
      ((∃ a, a ∈ (activeKeys ns.map).toFinset ∧ a ∉ it.visited ∧
         it2.visited = insert a it.visited ∧ it2.next_item = some a ∧
         it2.active_nodes = it.active_nodes) ∨
       (it2.visited = it.visited ∧ it2.next_item = none ∧
         it.visited.card = it.active_nodes ∧ it2.active_nodes = it.active_nodes)) := by
  intro fuel
  induction fuel with
  | zero =>
    intro ns it out ns2 it2 hg h
    simp [NodeSet.iterNext] at h
  | succ fuel ih =>
    intro ns it out ns2 it2 hg h
    obtain ⟨hnd, hkc, hso, hsub, hact, hbuf⟩ := hg
    rw [NodeSet.iterNext] at h
    rcases hp : ns.pop shuffle with ⟨oa, nsp⟩
    rw [hp] at h
    have hmapp : nsp.map = ns.map := by
      have := pop_map shuffle ns
      rw [hp] at this
      exact this
    cases oa with
    | none => simp at h
    | some addr =>
      obtain ⟨hsa, hso2⟩ := pop_stackOk shuffle hperm hnd hkc hso hp
      have hgp : Good nsp it := by
        unfold Good
        rw [hmapp]
        exact ⟨hnd, hkc, hso2, hsub, hact, hbuf⟩
      dsimp only at h
      by_cases hc : nsp.contains addr = false
      · rw [if_pos hc] at h
        have hres := ih nsp it out ns2 it2 hgp h
        rw [hmapp] at hres
        exact hres
      · rw [if_neg hc] at h
        have hctrue : nsp.contains addr = true := by
          cases hq : nsp.contains addr
          · exact absurd hq hc
          · rfl
        have hsa2 : staleOrActive nsp.map addr := by
          rw [hmapp]
          exact hsa
        have haddr : addr ∈ (activeKeys ns.map).toFinset := by
          have := active_of_contains hsa2 hctrue
          rw [hmapp] at this
          exact this
        by_cases hv : addr ∈ it.visited
        · rw [if_neg (by simpa using hv)] at h
          by_cases hcard : it.visited.card = it.active_nodes
          · rw [if_pos hcard] at h
            simp only [Option.some.injEq, Prod.mk.injEq] at h
            obtain ⟨h1, h2, h3⟩ := h
            subst h1
            subst h2
            subst h3
            refine ⟨hmapp, rfl, ?_, Or.inr ⟨rfl, rfl, hcard, rfl⟩⟩
            unfold Good
            rw [hmapp]
            exact ⟨hnd, hkc, hso2, hsub, hact, hcard⟩
          · rw [if_neg hcard] at h
            have hres := ih nsp it out ns2 it2 hgp h
            rw [hmapp] at hres
            exact hres
        · rw [if_pos hv] at h
          simp only [Option.some.injEq, Prod.mk.injEq] at h
          obtain ⟨h1, h2, h3⟩ := h
          subst h1
          subst h2
          subst h3
          refine ⟨hmapp, rfl, ?_, Or.inl ⟨addr, haddr, hv, rfl, rfl, rfl⟩⟩
          unfold Good
          rw [hmapp]
          refine ⟨hnd, hkc, hso2, Finset.insert_subset haddr hsub, hact, ?_⟩
          exact Finset.mem_insert_self addr it.visited

/-- The set of addresses still buffered in the look-ahead slot. -/
def obuf : Option SocketAddr → Finset SocketAddr
  | some b => {b}
  | none => ∅

theorem runIter_spec (shuffle : Nat → List SocketAddr → List SocketAddr × Nat)
    (hperm : ∀ r li, (shuffle r li).1.Perm li) :
    ∀ (fuel : Nat) (ns : NodeSet) (it : Iter) (l : List SocketAddr)
      (ns2 : NodeSet) (it2 : Iter), Good ns it →
      NodeSet.runIter shuffle fuel ns it = some (l, ns2, it2) →
      l.Nodup ∧
      l.toFinset = ((activeKeys ns.map).toFinset \ it.visited) ∪ obuf it.next_item := by
  intro fuel
  induction fuel with
  | zero =>
    intro ns it l ns2 it2 hg h
    simp [NodeSet.runIter] at h
  | succ fuel ih =>
    intro ns it l ns2 it2 hg h
    rw [NodeSet.runIter] at h
    rcases hi : NodeSet.iterNext shuffle (fuel + 1) ns it with _ | ⟨o, ns3, it3⟩
    · rw [hi] at h
      simp at h
    · rw [hi] at h
      obtain ⟨hmap3, hout, hg3, hcase⟩ := iterNext_spec shuffle hperm (fuel + 1) ns it o ns3 it3 hg hi
      cases o with
      | none =>
        simp only [Option.some.injEq, Prod.mk.injEq] at h
        obtain ⟨h1, h2, h3⟩ := h
        subst h1
        subst h2
        subst h3
        obtain ⟨_, _, _, hsub, hact, hbuf⟩ := hg
        have hnone : it.next_item = none := hout.symm
        rw [hnone] at hbuf
        have hbuf2 : it.visited.card = it.active_nodes := hbuf
        have hvc : it.visited.card = (activeKeys ns.map).toFinset.card := by
          rw [hbuf2, hact]
        have hvis : it.visited = (activeKeys ns.map).toFinset :=
          Finset.eq_of_subset_of_card_le hsub (le_of_eq hvc.symm)
        simp [hvis, hnone, obuf]
      | some a =>
        dsimp only at h
        rcases hr : NodeSet.runIter shuffle fuel ns3 it3 with _ | ⟨l2, ns4, it4⟩
        · rw [hr] at h
          simp at h
        · rw [hr] at h
          simp only [Option.some.injEq, Prod.mk.injEq] at h
          obtain ⟨h1, h2, h3⟩ := h
          subst h2
          subst h3
          obtain ⟨hnd2, hih⟩ := ih ns3 it3 l2 ns4 it4 hg3 hr
          rw [hmap3] at hih
          have hmema : a ∈ it.visited := by
            obtain ⟨_, _, _, _, _, hbuf⟩ := hg
            rw [← hout] at hbuf
            exact hbuf
          rcases hcase with ⟨b, hbact, hbnv, hv3, hn3, _⟩ | ⟨hv3, hn3, hcard, _⟩
          · -- a fresh address b was buffered; the yielded item is the old buffer a
            have hanin : a ∉ l2 := by
              rw [← List.mem_toFinset, hih, hv3, hn3]
              simp only [Finset.mem_union, Finset.mem_sdiff, Finset.mem_insert, obuf,
                Finset.mem_singleton]
              rintro (⟨_, hna⟩ | rfl)
              · exact hna (Or.inr hmema)
              · exact hbnv hmema
            subst h1
            refine ⟨List.nodup_cons.mpr ⟨hanin, hnd2⟩, ?_⟩
            rw [List.toFinset_cons, hih, hv3, hn3, ← hout]
            ext x
            simp only [Finset.mem_insert, Finset.mem_union, Finset.mem_sdiff,
              Finset.mem_singleton, obuf]
            by_cases hxb : x = b
            · subst hxb
              tauto
            · tauto
          · -- the buffer was flushed: the visited set is complete and l2 is empty
            obtain ⟨_, _, _, hsub, hact, _⟩ := hg
            have hvc : it.visited.card = (activeKeys ns.map).toFinset.card := by
              rw [hcard, hact]
            have hvis : it.visited = (activeKeys ns.map).toFinset :=
              Finset.eq_of_subset_of_card_le hsub (le_of_eq hvc.symm)
            have hl2 : l2 = [] := by
              have : l2.toFinset = ∅ := by
                rw [hih, hv3, hn3, hvis]
                simp [obuf]
              simpa using this
            subst h1
            subst hl2
            refine ⟨by simp, ?_⟩
            rw [← hout, hvis]
            simp [obuf]

theorem iterInit_spec (shuffle : Nat → List SocketAddr → List SocketAddr × Nat)
    (hperm : ∀ r li, (shuffle r li).1.Perm li) :
    ∀ (fuel : Nat) (ns : NodeSet) (r : NodeSet × Iter),
      (keysA ns.map).Nodup → keyConsistent ns.map → stackOk ns →
      NodeSet.iter_unique_random_addrs shuffle fuel ns = some (some r) →
      r.1.map = ns.map ∧ Good r.1 r.2 ∧
      ∃ a, a ∈ (activeKeys ns.map).toFinset ∧
        r.2 = ⟨{a}, some a, (activeKeys ns.map).toFinset.card⟩ := by
  intro fuel
  induction fuel with
  | zero =>
    intro ns r hnd hkc hso h
    simp [NodeSet.iter_unique_random_addrs] at h
  | succ fuel ih =>
    intro ns r hnd hkc hso h
    rw [NodeSet.iter_unique_random_addrs] at h
    rcases hp : ns.pop shuffle with ⟨oa, nsp⟩
    rw [hp] at h
    have hmapp : nsp.map = ns.map := by
      have := pop_map shuffle ns
      rw [hp] at this
      exact this
    cases oa with
    | none => simp at h
    | some addr =>
      obtain ⟨hsa, hso2⟩ := pop_stackOk shuffle hperm hnd hkc hso hp
      dsimp only at h
      by_cases hc : nsp.contains addr
      · rw [if_pos hc] at h
        simp only [Option.some.injEq] at h
        subst h
        have hsa2 : staleOrActive nsp.map addr := by
          rw [hmapp]
          exact hsa
        have haddr2 : addr ∈ (activeKeys nsp.map).toFinset := active_of_contains hsa2 hc
        have haddr : addr ∈ (activeKeys ns.map).toFinset := by
          rw [hmapp] at haddr2
          exact haddr2
        have hcnt : nsp.counts.1 + nsp.counts.2.1 + nsp.counts.2.2.1 =
            (activeKeys ns.map).toFinset.card := by
          rw [counts_sum3 (by rw [hmapp]; exact hnd), hmapp]
        refine ⟨hmapp, ?_, addr, haddr, ?_⟩
        · unfold Good
          rw [hmapp]
          refine ⟨hnd, hkc, hso2, Finset.singleton_subset_iff.mpr haddr, ?_, ?_⟩
          · simp [hcnt]
          · simp
        · simp [hcnt]
      · rw [if_neg hc] at h
        have := ih nsp r (by rw [hmapp]; exact hnd) (by rw [hmapp]; exact hkc) hso2 h
        rw [hmapp] at this
        exact this

theorem iterNext_frame (shuffle : Nat → List SocketAddr → List SocketAddr × Nat) :
    ∀ (fuel : Nat) (ns : NodeSet) (it : Iter) (out : Option SocketAddr)
      (ns2 : NodeSet) (it2 : Iter),
      NodeSet.iterNext shuffle fuel ns it = some (out, ns2, it2) →
      ns2.map = ns.map ∧ out = it.next_item ∧
      (it2.next_item = none ∨
       ∃ a, it2.next_item = some a ∧ ns.contains a = true) := by
  intro fuel
  induction fuel with
  | zero =>
    intro ns it out ns2 it2 h
    simp [NodeSet.iterNext] at h
  | succ fuel ih =>
    intro ns it out ns2 it2 h
    rw [NodeSet.iterNext] at h
    rcases hp : ns.pop shuffle with ⟨oa, nsp⟩
    rw [hp] at h
    have hmapp : nsp.map = ns.map := by
      have := pop_map shuffle ns
      rw [hp] at this
      exact this
    have hcont : ∀ b, nsp.contains b = ns.contains b := by
      intro b
      simp [NodeSet.contains, hmapp]
    cases oa with
    | none => simp at h
    | some addr =>
      dsimp only at h
      by_cases hc : nsp.contains addr = false
      · rw [if_pos hc] at h
        obtain ⟨h1, h2, h3⟩ := ih nsp it out ns2 it2 h
        refine ⟨by rw [h1, hmapp], h2, ?_⟩
        rcases h3 with h3 | ⟨a, ha1, ha2⟩
        · exact Or.inl h3
        · exact Or.inr ⟨a, ha1, by rw [← hcont a]; exact ha2⟩
      · rw [if_neg hc] at h
        have hctrue : nsp.contains addr = true := by
          cases hq : nsp.contains addr
          · exact absurd hq hc
          · rfl
        by_cases hv : addr ∈ it.visited
        · rw [if_neg (by simpa using hv)] at h
          by_cases hcard : it.visited.card = it.active_nodes
          · rw [if_pos hcard] at h
            simp only [Option.some.injEq, Prod.mk.injEq] at h
            obtain ⟨h1, h2, h3⟩ := h
            subst h1
            subst h2
            subst h3
            exact ⟨hmapp, rfl, Or.inl rfl⟩
          · rw [if_neg hcard] at h
            obtain ⟨h1, h2, h3⟩ := ih nsp it out ns2 it2 h
            refine ⟨by rw [h1, hmapp], h2, ?_⟩
            rcases h3 with h3 | ⟨a, ha1, ha2⟩
            · exact Or.inl h3
            · exact Or.inr ⟨a, ha1, by rw [← hcont a]; exact ha2⟩
        · rw [if_pos hv] at h
          simp only [Option.some.injEq, Prod.mk.injEq] at h
          obtain ⟨h1, h2, h3⟩ := h
          subst h1
          subst h2
          subst h3
          refine ⟨hmapp, rfl, Or.inr ⟨addr, rfl, ?_⟩⟩
          rw [← hcont addr]
          exact hctrue

theorem runIter_avoid (shuffle : Nat → List SocketAddr → List SocketAddr × Nat) :
    ∀ (fuel : Nat) (ns : NodeSet) (it : Iter) (l : List SocketAddr)
      (ns2 : NodeSet) (it2 : Iter) (addr : SocketAddr),
      lookupA addr ns.map = none → it.next_item ≠ some addr →
      NodeSet.runIter shuffle fuel ns it = some (l, ns2, it2) →
      addr ∉ l := by
  intro fuel
  induction fuel with
  | zero =>
    intro ns it l ns2 it2 addr hlk hbuf h
    simp [NodeSet.runIter] at h
  | succ fuel ih =>
    intro ns it l ns2 it2 addr hlk hbuf h
    rw [NodeSet.runIter] at h
    rcases hi : NodeSet.iterNext shuffle (fuel + 1) ns it with _ | ⟨o, ns3, it3⟩
    · rw [hi] at h
      simp at h
    · rw [hi] at h
      obtain ⟨hmap3, hout, hnew⟩ := iterNext_frame shuffle (fuel + 1) ns it o ns3 it3 hi
      cases o with
      | none =>
        simp only [Option.some.injEq, Prod.mk.injEq] at h
        obtain ⟨h1, _, _⟩ := h
        subst h1
        simp
      | some a =>
        dsimp only at h
        rcases hr : NodeSet.runIter shuffle fuel ns3 it3 with _ | ⟨l2, ns4, it4⟩
        · rw [hr] at h
          simp at h
        · rw [hr] at h
          simp only [Option.some.injEq, Prod.mk.injEq] at h
          obtain ⟨h1, _, _⟩ := h
          subst h1
          have hne : a ≠ addr := by
            intro hq
            subst hq
            exact hbuf hout.symm
          have hbuf3 : it3.next_item ≠ some addr := by
            rcases hnew with hn | ⟨b, hb1, hb2⟩
            · rw [hn]
              simp
            · rw [hb1]
              intro hq
              have hbe : b = addr := by
                injection hq
              subst hbe
              simp [NodeSet.contains, hlk] at hb2
          have hrec := ih ns3 it3 l2 ns4 it4 addr (by rw [hmap3]; exact hlk) hbuf3 hr
          simp only [List.mem_cons]
          rintro (rfl | hq)
          · exact hne rfl
          · exact hrec hq

theorem iterNext_step (shuffle : Nat → List SocketAddr → List SocketAddr × Nat) :
    ∀ (fuel : Nat) (ns : NodeSet) (it : Iter) (out : Option SocketAddr)
      (ns2 : NodeSet) (it2 : Iter),
      NodeSet.iterNext shuffle fuel ns it = some (out, ns2, it2) →
      ns2.map = ns.map ∧ out = it.next_item ∧
      ((∃ b, b ∉ it.visited ∧ ns.contains b = true ∧
         it2.visited = insert b it.visited ∧ it2.next_item = some b) ∨
       (it2.visited = it.visited ∧ it2.next_item = none)) := by
  intro fuel
  induction fuel with
  | zero =>
    intro ns it out ns2 it2 h
    simp [NodeSet.iterNext] at h
  | succ fuel ih =>
    intro ns it out ns2 it2 h
    rw [NodeSet.iterNext] at h
    rcases hp : ns.pop shuffle with ⟨oa, nsp⟩
    rw [hp] at h
    have hmapp : nsp.map = ns.map := by
      have := pop_map shuffle ns
      rw [hp] at this
      exact this
    have hcont : ∀ b, nsp.contains b = ns.contains b := by
      intro b
      simp [NodeSet.contains, hmapp]
    cases oa with
    | none => simp at h
    | some addr =>
      dsimp only at h
      by_cases hc : nsp.contains addr = false
      · rw [if_pos hc] at h
        obtain ⟨h1, h2, h3⟩ := ih nsp it out ns2 it2 h
        refine ⟨by rw [h1, hmapp], h2, ?_⟩
        rcases h3 with ⟨b, hb1, hb2, hb3, hb4⟩ | hf
        · exact Or.inl ⟨b, hb1, by rw [← hcont b]; exact hb2, hb3, hb4⟩
        · exact Or.inr hf
      · rw [if_neg hc] at h
        have hctrue : nsp.contains addr = true := by
          cases hq : nsp.contains addr
          · exact absurd hq hc
          · rfl
        by_cases hv : addr ∈ it.visited
        · rw [if_neg (by simpa using hv)] at h
          by_cases hcard : it.visited.card = it.active_nodes
          · rw [if_pos hcard] at h
            simp only [Option.some.injEq, Prod.mk.injEq] at h
            obtain ⟨h1, h2, h3⟩ := h
            subst h1
            subst h2
            subst h3
            exact ⟨hmapp, rfl, Or.inr ⟨rfl, rfl⟩⟩
          · rw [if_neg hcard] at h
            obtain ⟨h1, h2, h3⟩ := ih nsp it out ns2 it2 h
            refine ⟨by rw [h1, hmapp], h2, ?_⟩
            rcases h3 with ⟨b, hb1, hb2, hb3, hb4⟩ | hf
            · exact Or.inl ⟨b, hb1, by rw [← hcont b]; exact hb2, hb3, hb4⟩
            · exact Or.inr hf
        · rw [if_pos hv] at h
          simp only [Option.some.injEq, Prod.mk.injEq] at h
          obtain ⟨h1, h2, h3⟩ := h
          subst h1
          subst h2
          subst h3
          refine ⟨hmapp, rfl, Or.inl ⟨addr, hv, ?_, rfl, rfl⟩⟩
          rw [← hcont addr]
          exact hctrue

theorem iterInit_light (shuffle : Nat → List SocketAddr → List SocketAddr × Nat) :
    ∀ (fuel : Nat) (ns : NodeSet) (r : NodeSet × Iter),
      NodeSet.iter_unique_random_addrs shuffle fuel ns = some (some r) →
      r.1.map = ns.map ∧
      ∃ a, r.2.visited = {a} ∧ r.2.next_item = some a ∧ r.1.contains a = true := by
  intro fuel
  induction fuel with
  | zero =>
    intro ns r h
    simp [NodeSet.iter_unique_random_addrs] at h
  | succ fuel ih =>
    intro ns r h
    rw [NodeSet.iter_unique_random_addrs] at h
    rcases hp : ns.pop shuffle with ⟨oa, nsp⟩
    rw [hp] at h
    have hmapp : nsp.map = ns.map := by
      have := pop_map shuffle ns
      rw [hp] at this
      exact this
    cases oa with
    | none => simp at h
    | some addr =>
      dsimp only at h
      by_cases hc : nsp.contains addr
      · rw [if_pos hc] at h
        simp only [Option.some.injEq] at h
        subst h
        exact ⟨hmapp, addr, rfl, rfl, hc⟩
      · rw [if_neg hc] at h
        obtain ⟨h1, h2⟩ := ih nsp r h
        exact ⟨by rw [h1, hmapp], h2⟩

theorem runIter_nodup (shuffle : Nat → List SocketAddr → List SocketAddr × Nat) :
    ∀ (fuel : Nat) (ns : NodeSet) (it : Iter) (l : List SocketAddr)
      (ns2 : NodeSet) (it2 : Iter),
      (∀ b, it.next_item = some b → b ∈ it.visited ∧ ns.contains b = true) →
      NodeSet.runIter shuffle fuel ns it = some (l, ns2, it2) →
      l.Nodup ∧ (∀ x ∈ l, ns.contains x = true) ∧
      (∀ x ∈ l, it.next_item = some x ∨ x ∉ it.visited) := by
  intro fuel
  induction fuel with
  | zero =>
    intro ns it l ns2 it2 hbuf h
    simp [NodeSet.runIter] at h
  | succ fuel ih =>
    intro ns it l ns2 it2 hbuf h
    rw [NodeSet.runIter] at h
    rcases hi : NodeSet.iterNext shuffle (fuel + 1) ns it with _ | ⟨o, ns3, it3⟩
    · rw [hi] at h
      simp at h
    · rw [hi] at h
      obtain ⟨hmap3, hout, hstep⟩ := iterNext_step shuffle (fuel + 1) ns it o ns3 it3 hi
      have hcont3 : ∀ b, ns3.contains b = ns.contains b := by
        intro b
        simp [NodeSet.contains, hmap3]
      cases o with
      | none =>
        simp only [Option.some.injEq, Prod.mk.injEq] at h
        obtain ⟨h1, _, _⟩ := h
        subst h1
        refine ⟨List.nodup_nil, ?_, ?_⟩ <;> intro x hx <;> simp at hx
      | some a =>
        dsimp only at h
        rcases hr : NodeSet.runIter shuffle fuel ns3 it3 with _ | ⟨l2, ns4, it4⟩
        · rw [hr] at h
          simp at h
        · rw [hr] at h
          simp only [Option.some.injEq, Prod.mk.injEq] at h
          obtain ⟨h1, _, _⟩ := h
          subst h1
          obtain ⟨hav, hac⟩ := hbuf a hout.symm
          rcases hstep with ⟨b, hb1, hb2, hb3, hb4⟩ | ⟨hf1, hf2⟩
          · have hbuf3 : ∀ c, it3.next_item = some c →
                c ∈ it3.visited ∧ ns3.contains c = true := by
              intro c hcq
              rw [hb4] at hcq
              injection hcq with hcq
              subst hcq
              refine ⟨?_, by rw [hcont3]; exact hb2⟩
              rw [hb3]
              exact Finset.mem_insert_self b it.visited
            obtain ⟨hnd2, hmem2, hfresh2⟩ := ih ns3 it3 l2 ns4 it4 hbuf3 hr
            have htail : ∀ x ∈ l2, x = b ∨ x ∉ it.visited := by
              intro x hx
              rcases hfresh2 x hx with hq | hq
              · rw [hb4] at hq
                injection hq with hq
                exact Or.inl hq.symm
              · rw [hb3] at hq
                exact Or.inr (fun hm => hq (Finset.mem_insert_of_mem hm))
            refine ⟨?_, ?_, ?_⟩
            · rw [List.nodup_cons]
              refine ⟨fun hal => ?_, hnd2⟩
              rcases htail a hal with hq | hq
              · subst hq
                exact hb1 hav
              · exact hq hav
            · intro x hx
              rcases List.mem_cons.mp hx with hq | hq
              · subst hq
                exact hac
              · rw [← hcont3 x]
                exact hmem2 x hq
            · intro x hx
              rcases List.mem_cons.mp hx with hq | hq
              · subst hq
                exact Or.inl hout.symm
              · rcases htail x hq with hq2 | hq2
                · subst hq2
                  exact Or.inr hb1
                · exact Or.inr hq2
          · have hbuf3 : ∀ c, it3.next_item = some c →
                c ∈ it3.visited ∧ ns3.contains c = true := by
              intro c hcq
              rw [hf2] at hcq
              simp at hcq
            obtain ⟨hnd2, hmem2, hfresh2⟩ := ih ns3 it3 l2 ns4 it4 hbuf3 hr
            have htail : ∀ x ∈ l2, x ∉ it.visited := by
              intro x hx
              rcases hfresh2 x hx with hq | hq
              · rw [hf2] at hq
                simp at hq
              · rw [hf1] at hq
                exact hq
            refine ⟨?_, ?_, ?_⟩
            · rw [List.nodup_cons]
              exact ⟨fun hal => htail a hal hav, hnd2⟩
            · intro x hx
              rcases List.mem_cons.mp hx with hq | hq
              · subst hq
                exact hac
              · rw [← hcont3 x]
                exact hmem2 x hq
            · intro x hx
              rcases List.mem_cons.mp hx with hq | hq
              · subst hq
                exact Or.inl hout.symm
              · exact Or.inr (htail x hq)

/-- C7 counterexample: the unique-random traversal can both yield a removed
address and, from an API-reachable state, complete while yielding a Left
address and skipping an alive one. Conjuncts 1-5: a NodeSet with two alive
nodes 0 and 1 starts a traversal; the first step yields 0 and buffers 1 as
the look-ahead item; address 1 is then removed from the map; the next
iterator step still yields 1 — an address removed mid-iteration IS yielded
after its removal. Conjuncts 6-10: building a NodeSet through the public
API alone (insert nodes 1 and 0, refill the stack, insert node 2, bump node
1's incarnation, then overwrite node 0 with Left — Left wins the state
order, and neither insert nor remove touches the stack) leaves address 0 on
the stack while its stored node is Left; the traversal started there
COMPLETES with yield list [0, 1]: it yields the Left address 0 (`contains`
only checks map membership) and never yields the alive address 2 (the
frozen active-node count 2 is reached before 2 is popped), although the
non-Left keys are exactly [1, 2]. -/
theorem C7_unique_random_traversal_counterexample :
    ((NodeSet.iter_unique_random_addrs idShuffle 5
        ⟨[(0, ⟨0, .alive 0, none⟩), (1, ⟨1, .alive 0, none⟩)], [], 0⟩).map
          (fun o => o.map (fun p =>
            (p.1, p.2.visited, p.2.next_item, p.2.active_nodes))) =
      some (some (⟨[(0, ⟨0, .alive 0, none⟩), (1, ⟨1, .alive 0, none⟩)], [1], 0⟩,
        {0}, some 0, 2))) ∧
    ((NodeSet.iterNext idShuffle 4
        ⟨[(0, ⟨0, .alive 0, none⟩), (1, ⟨1, .alive 0, none⟩)], [1], 0⟩
        ⟨{0}, some 0, 2⟩).map
          (fun r => (r.1, r.2.1, r.2.2.visited, r.2.2.next_item, r.2.2.active_nodes)) =
      some (some 0, ⟨[(0, ⟨0, .alive 0, none⟩), (1, ⟨1, .alive 0, none⟩)], [], 0⟩,
        insert 1 ({0} : Finset SocketAddr), some 1, 2)) ∧
    ((⟨[(0, ⟨0, .alive 0, none⟩), (1, ⟨1, .alive 0, none⟩)], [], 0⟩ : NodeSet).remove 1).2 =
      ⟨[(0, ⟨0, .alive 0, none⟩)], [], 0⟩ ∧
    lookupA 1 [(0, (⟨0, .alive 0, none⟩ : Node))] = none ∧
    (NodeSet.iterNext idShuffle 4 ⟨[(0, ⟨0, .alive 0, none⟩)], [], 0⟩
        ⟨insert 1 ({0} : Finset SocketAddr), some 1, 2⟩).map (fun r => r.1) = some (some 1) ∧
    ((((((((NodeSet.mk [] [] 0).insert ⟨1, .alive 0, none⟩).2.insert
        ⟨0, .alive 0, none⟩).2.refill_stack idShuffle).insert
        ⟨2, .alive 0, none⟩).2.insert ⟨1, .alive 1, none⟩).2.insert ⟨0, .left, none⟩).2 =
      ⟨[(0, ⟨0, .left, none⟩), (1, ⟨1, .alive 1, none⟩), (2, ⟨2, .alive 0, none⟩)],
        [0, 1], 0⟩) ∧
    ((NodeSet.iter_unique_random_addrs idShuffle 6
        ⟨[(0, ⟨0, .left, none⟩), (1, ⟨1, .alive 1, none⟩), (2, ⟨2, .alive 0, none⟩)],
          [0, 1], 0⟩).map
          (fun o => o.map (fun p =>
            (p.1, p.2.visited, p.2.next_item, p.2.active_nodes))) =
      some (some (⟨[(0, ⟨0, .left, none⟩), (1, ⟨1, .alive 1, none⟩),
        (2, ⟨2, .alive 0, none⟩)], [1], 0⟩, {0}, some 0, 2))) ∧
    ((NodeSet.runIter idShuffle 10
        ⟨[(0, ⟨0, .left, none⟩), (1, ⟨1, .alive 1, none⟩), (2, ⟨2, .alive 0, none⟩)],
          [1], 0⟩ ⟨{0}, some 0, 2⟩).map (fun r => r.1) = some [0, 1]) ∧
    lookupA 0 [(0, (⟨0, .left, none⟩ : Node)), (1, ⟨1, .alive 1, none⟩),
      (2, ⟨2, .alive 0, none⟩)] = some ⟨0, .left, none⟩ ∧
    (activeKeys [(0, (⟨0, .left, none⟩ : Node)), (1, ⟨1, .alive 1, none⟩),
        (2, ⟨2, .alive 0, none⟩)] = [1, 2] ∧
      (2 : SocketAddr) ∉ ([0, 1] : List SocketAddr) ∧
      (0 : SocketAddr) ∉ activeKeys [(0, (⟨0, .left, none⟩ : Node)),
        (1, ⟨1, .alive 1, none⟩), (2, ⟨2, .alive 0, none⟩)]) := by
  refine ⟨by decide, by decide, by decide, by decide, by decide,
    by decide, by decide, by decide, by decide, by decide⟩

/-- C7 (amended): three guarantees of the unique-random traversal.
Part 1, conditioned on the stack being well formed when the traversal
starts (every stacked address stale or active, as immediately after
refill_stack): one full traversal yields each address whose node is present
and not Left exactly once. Part 2, unconditional: one full traversal never
yields an address twice, and every yielded address is a key of the map (the
map is unchanged during the traversal). Part 3: an address absent from the
map is never yielded UNLESS it is the single already-buffered look-ahead
item. (The original claim fails in two ways, as the counterexample shows:
the one-step look-ahead buffer can yield a just-removed address; and a
stale stacked address whose node has been overwritten to Left — which
insert produces, since it never touches the stack — is yielded in a
completed traversal while an alive address is skipped, because `contains`
only checks map membership and the frozen active-node count ends the
traversal early. So part 1's stack precondition cannot be dropped.) -/
theorem C7_unique_random_traversal_amended :
    (∀ (shuffle : Nat → List SocketAddr → List SocketAddr × Nat),
      (∀ r li, (shuffle r li).1.Perm li) →
      ∀ (fuel0 fuel1 : Nat) (ns ns1 ns2 : NodeSet) (it0 it2 : Iter)
        (l : List SocketAddr),
        (keysA ns.map).Nodup → keyConsistent ns.map → stackOk ns →
        NodeSet.iter_unique_random_addrs shuffle fuel0 ns = some (some (ns1, it0)) →
        NodeSet.runIter shuffle fuel1 ns1 it0 = some (l, ns2, it2) →
        l.Nodup ∧ ∀ x, x ∈ l ↔ x ∈ activeKeys ns.map) ∧
    (∀ (shuffle : Nat → List SocketAddr → List SocketAddr × Nat)
       (fuel0 fuel1 : Nat) (ns ns1 ns2 : NodeSet) (it0 it2 : Iter)
       (l : List SocketAddr),
        NodeSet.iter_unique_random_addrs shuffle fuel0 ns = some (some (ns1, it0)) →
        NodeSet.runIter shuffle fuel1 ns1 it0 = some (l, ns2, it2) →
        l.Nodup ∧ ∀ x ∈ l, x ∈ keysA ns.map) ∧
    (∀ (shuffle : Nat → List SocketAddr → List SocketAddr × Nat)
       (fuel : Nat) (ns ns2 : NodeSet) (it it2 : Iter) (l : List SocketAddr)
       (addr : SocketAddr),
        lookupA addr ns.map = none → it.next_item ≠ some addr →
        NodeSet.runIter shuffle fuel ns it = some (l, ns2, it2) →
        addr ∉ l) := by
  refine ⟨?_, ?_, ?_⟩
  · intro shuffle hperm fuel0 fuel1 ns ns1 ns2 it0 it2 l hnd hkc hso hinit hrun
    obtain ⟨hmap1, hgood, a, ha, hit0⟩ :=
      iterInit_spec shuffle hperm fuel0 ns (ns1, it0) hnd hkc hso hinit
    have hmap1' : ns1.map = ns.map := hmap1
    have hgood' : Good ns1 it0 := hgood
    have hit0' : it0 = (⟨{a}, some a, (activeKeys ns.map).toFinset.card⟩ : Iter) := hit0
    obtain ⟨hndl, hfin⟩ := runIter_spec shuffle hperm fuel1 ns1 it0 l ns2 it2 hgood' hrun
    rw [hmap1'] at hfin
    have hit0v : it0.visited = {a} := by rw [hit0']
    have hit0n : it0.next_item = some a := by rw [hit0']
    rw [hit0v, hit0n] at hfin
    have hfl : l.toFinset = (activeKeys ns.map).toFinset := by
      rw [hfin]
      show (activeKeys ns.map).toFinset \ {a} ∪ {a} = (activeKeys ns.map).toFinset
      exact Finset.sdiff_union_of_subset (Finset.singleton_subset_iff.mpr ha)
    refine ⟨hndl, fun x => ?_⟩
    rw [← List.mem_toFinset, hfl, List.mem_toFinset]
  · intro shuffle fuel0 fuel1 ns ns1 ns2 it0 it2 l hinit hrun
    obtain ⟨hmap1, a, hv, hn, hc⟩ := iterInit_light shuffle fuel0 ns (ns1, it0) hinit
    have hmap1' : ns1.map = ns.map := hmap1
    have hv' : it0.visited = {a} := hv
    have hn' : it0.next_item = some a := hn
    have hc' : ns1.contains a = true := hc
    have hbuf : ∀ b, it0.next_item = some b → b ∈ it0.visited ∧ ns1.contains b = true := by
      intro b hb
      rw [hn'] at hb
      injection hb with hb
      subst hb
      refine ⟨?_, hc'⟩
      rw [hv']
      exact Finset.mem_singleton_self a
    obtain ⟨hndl, hmem, _⟩ := runIter_nodup shuffle fuel1 ns1 it0 l ns2 it2 hbuf hrun
    refine ⟨hndl, fun x hx => ?_⟩
    have hcx := hmem x hx
    have hlk : lookupA x ns1.map ≠ none := by
      intro hq
      rw [NodeSet.contains, hq] at hcx
      simp at hcx
    rw [hmap1'] at hlk
    by_contra hxk
    exact hlk (lookupA_eq_none_iff.mpr hxk)
  · intro shuffle fuel ns ns2 it it2 l addr hlk hbuf hrun
    exact runIter_avoid shuffle fuel ns it l ns2 it2 addr hlk hbuf hrun

/-- Witness for the amended C7: the three parts applied at concrete runs
with the identity shuffle — a two-node full traversal yields [0, 1], whose
elements are exactly the non-Left keys (part 1) and are distinct map keys
(part 2), and in a one-node full traversal the absent address 5 is never
yielded (part 3). -/
theorem C7_unique_random_traversal_amended_witness :
    (([0, 1] : List SocketAddr).Nodup ∧
      (∀ x, x ∈ ([0, 1] : List SocketAddr) ↔
        x ∈ activeKeys [(0, ⟨0, .alive 0, none⟩), (1, ⟨1, .alive 0, none⟩)])) ∧
    (([0, 1] : List SocketAddr).Nodup ∧
      (∀ x ∈ ([0, 1] : List SocketAddr),
        x ∈ keysA [(0, (⟨0, .alive 0, none⟩ : Node)), (1, ⟨1, .alive 0, none⟩)])) ∧
    (5 : SocketAddr) ∉ ([0] : List SocketAddr) := by
  refine ⟨?_, ?_, ?_⟩
  · exact C7_unique_random_traversal_amended.1 idShuffle
      (fun r li => List.Perm.refl li) 5 10
      ⟨[(0, ⟨0, .alive 0, none⟩), (1, ⟨1, .alive 0, none⟩)], [], 0⟩
      ⟨[(0, ⟨0, .alive 0, none⟩), (1, ⟨1, .alive 0, none⟩)], [1], 0⟩
      ⟨[(0, ⟨0, .alive 0, none⟩), (1, ⟨1, .alive 0, none⟩)], [], 0⟩
      ⟨{0}, some 0, 2⟩ ⟨insert 1 ({0} : Finset SocketAddr), none, 2⟩ [0, 1]
      (by decide) (by unfold keyConsistent; decide) (by intro a ha; simp at ha)
      (by decide) (by decide)
  · exact C7_unique_random_traversal_amended.2.1 idShuffle 5 10
      ⟨[(0, ⟨0, .alive 0, none⟩), (1, ⟨1, .alive 0, none⟩)], [], 0⟩
      ⟨[(0, ⟨0, .alive 0, none⟩), (1, ⟨1, .alive 0, none⟩)], [1], 0⟩
      ⟨[(0, ⟨0, .alive 0, none⟩), (1, ⟨1, .alive 0, none⟩)], [], 0⟩
      ⟨{0}, some 0, 2⟩ ⟨insert 1 ({0} : Finset SocketAddr), none, 2⟩ [0, 1]
      (by decide) (by decide)
  · exact C7_unique_random_traversal_amended.2.2 idShuffle 10
      ⟨[(0, ⟨0, .alive 0, none⟩)], [], 0⟩ ⟨[(0, ⟨0, .alive 0, none⟩)], [], 0⟩
      ⟨{0}, some 0, 1⟩ ⟨{0}, none, 1⟩ [0] 5
      (by decide) (by decide) (by decide)

/-- C8 counterexample: insert one alive node at address 0, refill the stack
(so the stack is [0]), then remove 0. The stack still contains 0 while the
map no longer does, so the claimed invariant "an address appears on the
stack only if it is a key of the map" is violated after remove. -/
theorem C8_remove_leaves_stale_stack_counterexample :
    (0 : SocketAddr) ∈
      ((((NodeSet.mk [] [] 0).insert ⟨0, .alive 0, none⟩).2.refill_stack
        idShuffle).remove 0).2.stack ∧
    lookupA 0
      ((((NodeSet.mk [] [] 0).insert ⟨0, .alive 0, none⟩).2.refill_stack
        idShuffle).remove 0).2.map = none := by
  decide

theorem pop_none_stack (shuffle : Nat → List SocketAddr → List SocketAddr × Nat)
    (ns : NodeSet) {ns2 : NodeSet} (h : ns.pop shuffle = (none, ns2)) :
    ns2.stack = [] := by
  unfold NodeSet.pop at h
  rcases hs : ns.stack with _ | ⟨b, rest⟩
  · rw [hs] at h
    dsimp only at h
    rcases h2 : (NodeSet.refill_stack shuffle ns).stack with _ | ⟨c, rest2⟩ <;>
      rw [h2] at h <;> simp at h
    rw [← h, h2]
  · rw [hs] at h
    simp at h

/-- C8 (amended): refill_stack establishes the stack invariant — every
stacked address is then a non-Left member of the map; pop preserves stack
well-formedness; insert never touches the stack. NodeSet::remove also
leaves the stack unchanged, so a removed address may survive on the stack as
a stale entry (the original claim said remove leaves no occurrence of the
address on the stack; the counterexample refutes that — traversal instead
skips stale addresses at pop time). -/
theorem C8_stack_invariant_amended :
    (∀ (shuffle : Nat → List SocketAddr → List SocketAddr × Nat),
      (∀ r li, (shuffle r li).1.Perm li) →
      ∀ ns : NodeSet, (keysA ns.map).Nodup → keyConsistent ns.map →
        ∀ a ∈ (ns.refill_stack shuffle).stack,
          ∃ n, lookupA a ns.map = some n ∧ activeP n = true) ∧
    (∀ (ns : NodeSet) (n : Node), ((ns.insert n).2).stack = ns.stack) ∧
    (∀ (shuffle : Nat → List SocketAddr → List SocketAddr × Nat),
      (∀ r li, (shuffle r li).1.Perm li) →
      ∀ ns : NodeSet, (keysA ns.map).Nodup → keyConsistent ns.map →
        stackOk ns → stackOk (ns.pop shuffle).2) ∧
    (∀ (ns : NodeSet) (addr : SocketAddr), ((ns.remove addr).2).stack = ns.stack) := by
  refine ⟨?_, ?_, ?_, fun ns addr => rfl⟩
  · intro shuffle hperm ns hnd hkc a ha
    rw [refill_stack_stack] at ha
    have hb : a ∈ refillBase ns.map := (hperm ns.rng (refillBase ns.map)).mem_iff.mp ha
    rcases mem_refillBase.mp hb with ⟨k, n, hmem, hact, haddr⟩
    have hk : n.addr = k := hkc (k, n) hmem
    have hka : k = a := by rw [← hk, haddr]
    subst hka
    exact ⟨n, lookupA_of_mem_nodup hnd hmem, hact⟩
  · intro ns n
    unfold NodeSet.insert
    rcases lookupA n.addr ns.map with _ | cur
    · rfl
    · dsimp only
      rcases n.state.cmp cur.state <;> rfl
  · intro shuffle hperm ns hnd hkc hso
    rcases hp : ns.pop shuffle with ⟨oa, ns2⟩
    cases oa with
    | none =>
      intro a ha
      rw [pop_none_stack shuffle ns hp] at ha
      simp at ha
    | some addr =>
      exact (pop_stackOk shuffle hperm hnd hkc hso hp).2

/-- Witness for the amended C8: applied at a concrete one-node NodeSet with
the identity shuffle. -/
theorem C8_stack_invariant_amended_witness :
    (∃ n, lookupA 0 [(0, (⟨0, .alive 3, none⟩ : Node))] = some n ∧
      activeP n = true) ∧
    (((⟨[(0, ⟨0, .alive 3, none⟩)], [7], 1⟩ : NodeSet).insert
      ⟨0, .alive 9, none⟩).2).stack = [7] ∧
    (((⟨[], [4], 2⟩ : NodeSet).remove 4).2).stack = [4] := by
  refine ⟨?_, ?_, ?_⟩
  · exact C8_stack_invariant_amended.1 idShuffle (fun r li => List.Perm.refl li)
      ⟨[(0, ⟨0, .alive 3, none⟩)], [], 0⟩ (by decide) (by unfold keyConsistent; decide)
      0 (by decide)
  · exact C8_stack_invariant_amended.2.1 ⟨[(0, ⟨0, .alive 3, none⟩)], [7], 1⟩
      ⟨0, .alive 9, none⟩
  · exact C8_stack_invariant_amended.2.2.2 ⟨[], [4], 2⟩ 4

/-! PingStore (ping.rs). -/

/-- The node that asked for a ping on its behalf (`RequestSource`). -/
structure RequestSource where
  sequence : Nat
  addr : SocketAddr
deriving DecidableEq, Repr

/-- The target of a direct or indirect ping (`PingTarget`). -/
structure PingTarget where
  sequence : Nat
  addr : SocketAddr
deriving DecidableEq, Repr

/-- The target of a requested third-party ping (`PingRequestTarget`). -/
structure PingRequestTarget where
  sequence : Nat
  addr : SocketAddr
deriving DecidableEq, Repr

/-- An in-flight ping (`enum Ping` in ping.rs). -/
inductive Ping where
  | direct (addr : SocketAddr)
  | indirect (addr : SocketAddr) (nacks : Finset SocketAddr)
  | request (source : RequestSource) (nacked : Bool)
deriving DecidableEq

/-- Directive returned by `PingStore::fail` (`enum FailResult`). -/
inductive FailResult where
  | doIndirect (target : PingTarget)
  | sendNack (source : RequestSource)
  | requestFailed (source : RequestSource)
  | nodeFailed (addr : SocketAddr) (nacks : Finset SocketAddr)
deriving DecidableEq

/-- Translation of `struct PingStore`: the sequence counter, the
sequence-keyed ping map and the set of addresses with an in-flight
direct-or-indirect ping (`current`). -/
structure PingStore where
  sequence : Nat
  pings : List (Nat × Ping)
  current : Finset SocketAddr
deriving DecidableEq

/-- Translation of `PingStore::next_sequence`: returns the current counter
and increments it. -/
def PingStore.next_sequence (st : PingStore) : Nat × PingStore :=
  (st.sequence, { st with sequence := st.sequence + 1 })

/-- Translation of `PingStore::ping`: refuse an address already in flight,
otherwise add it to the in-flight set and record a Direct ping under a
fresh sequence. -/
def PingStore.ping (st : PingStore) (addr : SocketAddr) :
    Except SocketAddr PingTarget × PingStore :=
  if addr ∈ st.current then (.error addr, st)
  else
    let st1 : PingStore := { st with current := Insert.insert addr st.current }
    let s := st1.next_sequence
    (.ok ⟨s.1, addr⟩, { s.2 with pings := insertA s.1 (.direct addr) s.2.pings })

/-- Translation of `PingStore::ping_request`: record a Request ping (not
yet nacked) under a fresh sequence; the target address is not added to the
in-flight set. -/
def PingStore.ping_request (st : PingStore) (source : RequestSource)
    (target : SocketAddr) : PingRequestTarget × PingStore :=
  let s := st.next_sequence
  (⟨s.1, target⟩, { s.2 with pings := insertA s.1 (.request source false) s.2.pings })

/-- Translation of `PingStore::ack`: remove and return the entry; a Direct
or Indirect entry also removes its address from the in-flight set. -/
def PingStore.ack (st : PingStore) (sequence : Nat) : Option Ping × PingStore :=
  match lookupA sequence st.pings with
  | none => (none, st)
  | some p =>
    let st1 : PingStore := { st with pings := eraseA sequence st.pings }
    match p with
    | .direct addr => (some p, { st1 with current := st1.current.erase addr })
    | .indirect addr _ => (some p, { st1 with current := st1.current.erase addr })
    | .request _ _ => (some p, st1)

/-- The `assert!(self.current.remove(addr))` in `PingStore::ack` holds iff
the acknowledged entry's address is in the in-flight set. -/
def PingStore.ackAssertOk (st : PingStore) (sequence : Nat) : Bool :=
  match lookupA sequence st.pings with
  | some (.direct addr) => decide (addr ∈ st.current)
  | some (.indirect addr _) => decide (addr ∈ st.current)
  | _ => true

/-- Translation of `PingStore::nack`: only meaningful on an Indirect entry;
insert the sender and return the new count when the insertion is fresh. -/
def PingStore.nack (st : PingStore) (sequence : Nat) (sender : SocketAddr) :
    Option Nat × PingStore :=
  match lookupA sequence st.pings with
  | some (.indirect addr nacks) =>
    if sender ∈ nacks then (none, st)
    else
      (some (Insert.insert sender nacks).card,
        { st with
          pings := insertA sequence (.indirect addr (Insert.insert sender nacks)) st.pings })
  | _ => (none, st)

/-- Translation of `PingStore::fail`: the four-case timeout table. -/
def PingStore.fail (st : PingStore) (sequence : Nat) :
    Option FailResult × PingStore :=
  match lookupA sequence st.pings with
  | none => (none, st)
  | some p =>
    let st1 : PingStore := { st with pings := eraseA sequence st.pings }
    match p with
    | .request source true => (some (.requestFailed source), st1)
    | .request source false =>
      (some (.sendNack source),
        { st1 with pings := insertA sequence (.request source true) st1.pings })
    | .direct addr =>
      let s := st1.next_sequence
      (some (.doIndirect ⟨s.1, addr⟩),
        { s.2 with pings := insertA s.1 (.indirect addr ∅) s.2.pings })
    | .indirect addr nacks =>
      (some (.nodeFailed addr nacks), { st1 with current := st1.current.erase addr })

/-- The `assert!(self.current.remove(&addr))` in `PingStore::fail` holds iff
the failing Indirect entry's address is in the in-flight set. -/
def PingStore.failAssertOk (st : PingStore) (sequence : Nat) : Bool :=
  match lookupA sequence st.pings with
  | some (.indirect addr _) => decide (addr ∈ st.current)
  | _ => true

/-- Translation of `PingStore::clear`: empties pings and the in-flight set
(the sequence counter is kept). -/
def PingStore.clear (st : PingStore) : PingStore :=
  { st with pings := [], current := ∅ }

/-- Fold a list of `nack(sequence, sender)` calls over a store, keeping the
final store. -/
def nackAll (st : PingStore) (sequence : Nat) (senders : List SocketAddr) :
    PingStore :=
  senders.foldl (fun s x => (s.nack sequence x).2) st

theorem nackAll_lookup (q : Nat) (a : SocketAddr) :
    ∀ (senders : List SocketAddr) (st : PingStore) (ns : Finset SocketAddr),
      lookupA q st.pings = some (.indirect a ns) →
      lookupA q (nackAll st q senders).pings =
        some (.indirect a (ns ∪ senders.toFinset)) := by
  intro senders
  induction senders with
  | nil =>
    intro st ns h
    simpa [nackAll] using h
  | cons x t ih =>
    intro st ns h
    have hcons : nackAll st q (x :: t) = nackAll (st.nack q x).2 q t := rfl
    rw [hcons]
    by_cases hx : x ∈ ns
    · have hstep : (st.nack q x).2 = st := by
        unfold PingStore.nack
        rw [h]
        simp [hx]
      rw [hstep]
      have hset : ns ∪ (x :: t).toFinset = ns ∪ t.toFinset := by
        rw [List.toFinset_cons, Finset.union_insert,
          Finset.insert_eq_self.mpr (Finset.mem_union_left _ hx)]
      rw [hset]
      exact ih st ns h
    · have hstep : (st.nack q x).2 =
          { st with
            pings := insertA q (.indirect a (Insert.insert x ns)) st.pings } := by
        unfold PingStore.nack
        rw [h]
        simp [hx]
      rw [hstep]
      have hlk : lookupA q (insertA q (Ping.indirect a (Insert.insert x ns)) st.pings) =
          some (.indirect a (Insert.insert x ns)) := lookupA_insertA_self _ _ _
      have := ih { st with
        pings := insertA q (.indirect a (Insert.insert x ns)) st.pings }
        (Insert.insert x ns) hlk
      rw [this]
      rw [List.toFinset_cons, Finset.union_insert, Finset.insert_union]

/-- C3: PingStore::fail implements exactly the four-case timeout table —
on Direct(a): remove the entry, allocate the fresh strictly larger sequence
(the current counter), install Indirect(a, empty) under it and return
DoIndirect; on Request(src, false): re-insert Request(src, true) under the
same sequence and return SendNack; on Request(src, true): remove the entry
and return RequestFailed; on Indirect(a, nacks): remove the entry and the
address from the in-flight set and return NodeFailed(a, nacks); on an
unknown sequence: return none and leave the store unchanged. Moreover the
direct chain ping(A)=s0, fail(s0)=DoIndirect(A, s1) with s1 > s0, then any
sequence of nack(s1, sender) calls, then fail(s1)=NodeFailed(A, nacks)
where nacks is the set of distinct senders; and the request chain
ping_request(src, T)=s, fail(s)=SendNack(src), fail(s)=RequestFailed(src),
fail(s)=none all hold. -/
theorem C3_pingstore_fail_state_machine :
    (∀ (st : PingStore) (q : Nat),
      (lookupA q st.pings = none → st.fail q = (none, st)) ∧
      (∀ a, lookupA q st.pings = some (.direct a) →
        st.fail q = (some (.doIndirect ⟨st.sequence, a⟩),
          { sequence := st.sequence + 1,
            pings := insertA st.sequence (.indirect a ∅) (eraseA q st.pings),
            current := st.current })) ∧
      (∀ src, lookupA q st.pings = some (.request src false) →
        st.fail q = (some (.sendNack src),
          { st with pings := insertA q (.request src true) (eraseA q st.pings) })) ∧
      (∀ src, lookupA q st.pings = some (.request src true) →
        st.fail q = (some (.requestFailed src),
          { st with pings := eraseA q st.pings })) ∧
      (∀ a nacks, lookupA q st.pings = some (.indirect a nacks) →
        st.fail q = (some (.nodeFailed a nacks),
          { st with
            pings := eraseA q st.pings,
            current := st.current.erase a }))) ∧
    (∀ (st0 : PingStore) (A : SocketAddr) (senders : List SocketAddr),
      A ∉ st0.current →
      (st0.ping A).1 = .ok ⟨st0.sequence, A⟩ ∧
      ((st0.ping A).2.fail st0.sequence).1 =
        some (.doIndirect ⟨(st0.ping A).2.sequence, A⟩) ∧
      st0.sequence < (st0.ping A).2.sequence ∧
      ((nackAll ((st0.ping A).2.fail st0.sequence).2 (st0.ping A).2.sequence
          senders).fail (st0.ping A).2.sequence).1 =
        some (.nodeFailed A senders.toFinset)) ∧
    (∀ (st0 : PingStore) (src : RequestSource) (T : SocketAddr),
      (st0.ping_request src T).1 = ⟨st0.sequence, T⟩ ∧
      ((st0.ping_request src T).2.fail st0.sequence).1 = some (.sendNack src) ∧
      ((((st0.ping_request src T).2.fail st0.sequence).2).fail st0.sequence).1 =
        some (.requestFailed src) ∧
      (((((st0.ping_request src T).2.fail st0.sequence).2).fail
          st0.sequence).2).fail st0.sequence =
        (none, ((((st0.ping_request src T).2.fail st0.sequence).2).fail
          st0.sequence).2)) := by
  refine ⟨?_, ?_, ?_⟩
  · intro st q
    refine ⟨?_, ?_, ?_, ?_, ?_⟩
    · intro h
      unfold PingStore.fail
      rw [h]
    · intro a h
      unfold PingStore.fail
      rw [h]
      rfl
    · intro src h
      unfold PingStore.fail
      rw [h]
    · intro src h
      unfold PingStore.fail
      rw [h]
    · intro a nacks h
      unfold PingStore.fail
      rw [h]
  · intro st0 A senders hA
    have hping : st0.ping A =
        (.ok ⟨st0.sequence, A⟩,
          { sequence := st0.sequence + 1,
            pings := insertA st0.sequence (.direct A) st0.pings,
            current := Insert.insert A st0.current }) := by
      unfold PingStore.ping
      rw [if_neg hA]
      rfl
    rw [hping]
    refine ⟨rfl, ?_⟩
    have hfail1 :
        (PingStore.fail
          { sequence := st0.sequence + 1,
            pings := insertA st0.sequence (.direct A) st0.pings,
            current := Insert.insert A st0.current } st0.sequence) =
        (some (.doIndirect ⟨st0.sequence + 1, A⟩),
          { sequence := st0.sequence + 2,
            pings := insertA (st0.sequence + 1) (.indirect A ∅)
              (eraseA st0.sequence (insertA st0.sequence (.direct A) st0.pings)),
            current := Insert.insert A st0.current }) := by
      unfold PingStore.fail
      rw [lookupA_insertA_self]
      rfl
    rw [hfail1]
    refine ⟨rfl, Nat.lt_succ_self _, ?_⟩
    have hlk1 : lookupA (st0.sequence + 1)
        (insertA (st0.sequence + 1) (Ping.indirect A ∅)
          (eraseA st0.sequence (insertA st0.sequence (.direct A) st0.pings))) =
        some (.indirect A ∅) := lookupA_insertA_self _ _ _
    have hnk := nackAll_lookup (st0.sequence + 1) A senders
      { sequence := st0.sequence + 2,
        pings := insertA (st0.sequence + 1) (.indirect A ∅)
          (eraseA st0.sequence (insertA st0.sequence (.direct A) st0.pings)),
        current := Insert.insert A st0.current } ∅ hlk1
    rw [Finset.empty_union] at hnk
    unfold PingStore.fail
    rw [hnk]
  · intro st0 src T
    have hpr : st0.ping_request src T =
        (⟨st0.sequence, T⟩,
          { sequence := st0.sequence + 1,
            pings := insertA st0.sequence (.request src false) st0.pings,
            current := st0.current }) := rfl
    rw [hpr]
    refine ⟨rfl, ?_⟩
    have hfail1 :
        (PingStore.fail
          { sequence := st0.sequence + 1,
            pings := insertA st0.sequence (.request src false) st0.pings,
            current := st0.current } st0.sequence) =
        (some (.sendNack src),
          { sequence := st0.sequence + 1,
            pings := insertA st0.sequence (.request src true)
              (eraseA st0.sequence (insertA st0.sequence (.request src false) st0.pings)),
            current := st0.current }) := by
      unfold PingStore.fail
      rw [lookupA_insertA_self]
    rw [hfail1]
    refine ⟨rfl, ?_⟩
    have hfail2 :
        (PingStore.fail
          { sequence := st0.sequence + 1,
            pings := insertA st0.sequence (.request src true)
              (eraseA st0.sequence (insertA st0.sequence (.request src false) st0.pings)),
            current := st0.current } st0.sequence) =
        (some (.requestFailed src),
          { sequence := st0.sequence + 1,
            pings := eraseA st0.sequence (insertA st0.sequence (.request src true)
              (eraseA st0.sequence (insertA st0.sequence (.request src false) st0.pings))),
            current := st0.current }) := by
      unfold PingStore.fail
      rw [lookupA_insertA_self]
    rw [hfail2]
    refine ⟨rfl, ?_⟩
    unfold PingStore.fail
    rw [show lookupA st0.sequence
      (eraseA st0.sequence (insertA st0.sequence (Ping.request src true)
        (eraseA st0.sequence (insertA st0.sequence (.request src false) st0.pings)))) =
      none from lookupA_eraseA_self _ _]

/-- Witness for C3: the table and both chains applied at concrete stores:
an empty store pings address 1, fails it into the indirect phase, receives
nacks from 2 and 3, and fails again; a request chain runs through
SendNack, RequestFailed, none. -/
theorem C3_pingstore_fail_state_machine_witness :
    ((⟨0, [], ∅⟩ : PingStore).fail 0 = (none, ⟨0, [], ∅⟩)) ∧
    (((⟨0, [], ∅⟩ : PingStore).ping 1).1 = .ok ⟨0, 1⟩ ∧
      ((((⟨0, [], ∅⟩ : PingStore).ping 1).2.fail 0).1 =
        some (.doIndirect ⟨((⟨0, [], ∅⟩ : PingStore).ping 1).2.sequence, 1⟩)) ∧
      (0 : Nat) < ((⟨0, [], ∅⟩ : PingStore).ping 1).2.sequence ∧
      ((nackAll (((⟨0, [], ∅⟩ : PingStore).ping 1).2.fail 0).2
          ((⟨0, [], ∅⟩ : PingStore).ping 1).2.sequence [2, 3]).fail
          ((⟨0, [], ∅⟩ : PingStore).ping 1).2.sequence).1 =
        some (.nodeFailed 1 ([2, 3] : List SocketAddr).toFinset)) ∧
    (((⟨0, [], ∅⟩ : PingStore).ping_request ⟨9, 4⟩ 7).1 = ⟨0, 7⟩ ∧
      (((⟨0, [], ∅⟩ : PingStore).ping_request ⟨9, 4⟩ 7).2.fail 0).1 =
        some (.sendNack ⟨9, 4⟩) ∧
      ((((⟨0, [], ∅⟩ : PingStore).ping_request ⟨9, 4⟩ 7).2.fail 0).2.fail 0).1 =
        some (.requestFailed ⟨9, 4⟩) ∧
      (((((⟨0, [], ∅⟩ : PingStore).ping_request ⟨9, 4⟩ 7).2.fail 0).2.fail 0).2).fail 0 =
        (none, ((((⟨0, [], ∅⟩ : PingStore).ping_request ⟨9, 4⟩ 7).2.fail 0).2.fail 0).2)) := by
  refine ⟨?_, ?_, ?_⟩
  · exact ((C3_pingstore_fail_state_machine.1 ⟨0, [], ∅⟩ 0).1 (by decide))
  · exact C3_pingstore_fail_state_machine.2.1 ⟨0, [], ∅⟩ 1 [2, 3] (by decide)
  · exact C3_pingstore_fail_state_machine.2.2 ⟨0, [], ∅⟩ ⟨9, 4⟩ 7

/-- The address a ping holds in the in-flight set: Direct and Indirect
pings carry one, Request pings none. -/
def pingAddr : Ping → Option SocketAddr
  | .direct a => some a
  | .indirect a _ => some a
  | .request _ _ => none

/-- The PingStore invariant: unique sequence keys, every key below the
counter, every Direct/Indirect address in the in-flight set, and at most
one Direct-or-Indirect entry per address. -/
def PSInv (st : PingStore) : Prop :=
  (keysA st.pings).Nodup ∧
  (∀ k p, (k, p) ∈ st.pings → k < st.sequence) ∧
  (∀ k p a, (k, p) ∈ st.pings → pingAddr p = some a → a ∈ st.current) ∧
  (∀ k1 p1 k2 p2 a, (k1, p1) ∈ st.pings → (k2, p2) ∈ st.pings →
    pingAddr p1 = some a → pingAddr p2 = some a → k1 = k2)

/-- The states reachable from the default (empty) PingStore by any sequence
of ping, ping_request, ack, nack, fail and clear calls. -/
inductive PingStore.Reachable : PingStore → Prop where
  | empty : PingStore.Reachable ⟨0, [], ∅⟩
  | ping (st : PingStore) (addr : SocketAddr) :
      PingStore.Reachable st → PingStore.Reachable (st.ping addr).2
  | ping_request (st : PingStore) (src : RequestSource) (t : SocketAddr) :
      PingStore.Reachable st → PingStore.Reachable (st.ping_request src t).2
  | ack (st : PingStore) (q : Nat) :
      PingStore.Reachable st → PingStore.Reachable (st.ack q).2
  | nack (st : PingStore) (q : Nat) (sender : SocketAddr) :
      PingStore.Reachable st → PingStore.Reachable (st.nack q sender).2
  | fail (st : PingStore) (q : Nat) :
      PingStore.Reachable st → PingStore.Reachable (st.fail q).2
  | clear (st : PingStore) :
      PingStore.Reachable st → PingStore.Reachable st.clear

theorem psinv_empty : PSInv ⟨0, [], ∅⟩ := by
  refine ⟨by simp [keysA], ?_, ?_, ?_⟩ <;> intros <;> simp_all

theorem psinv_ping (st : PingStore) (addr : SocketAddr) (h : PSInv st) :
    PSInv (st.ping addr).2 := by
  by_cases hc : addr ∈ st.current
  · have : (st.ping addr).2 = st := by
      unfold PingStore.ping
      rw [if_pos hc]
    rw [this]
    exact h
  · obtain ⟨hnd, hbd, hin, hun⟩ := h
    have hst : (st.ping addr).2 =
        { sequence := st.sequence + 1,
          pings := insertA st.sequence (.direct addr) st.pings,
          current := Insert.insert addr st.current } := by
      unfold PingStore.ping
      rw [if_neg hc]
      rfl
    rw [hst]
    refine ⟨keysA_nodup_insertA hnd, ?_, ?_, ?_⟩
    · intro k p hkp
      rcases mem_insertA.mp hkp with heq | ⟨hmem, _⟩
      · rw [Prod.mk.injEq] at heq
        obtain ⟨rfl, rfl⟩ := heq
        exact Nat.lt_succ_self _
      · exact Nat.lt_succ_of_lt (hbd k p hmem)
    · intro k p a hkp hpa
      rcases mem_insertA.mp hkp with heq | ⟨hmem, _⟩
      · rw [Prod.mk.injEq] at heq
        obtain ⟨rfl, rfl⟩ := heq
        simp only [pingAddr, Option.some.injEq] at hpa
        subst hpa
        exact Finset.mem_insert_self _ _
      · exact Finset.mem_insert_of_mem (hin k p a hmem hpa)
    · intro k1 p1 k2 p2 a h1 h2 hp1 hp2
      rcases mem_insertA.mp h1 with he1 | ⟨hm1, hne1⟩ <;>
        rcases mem_insertA.mp h2 with he2 | ⟨hm2, hne2⟩
      · rw [Prod.mk.injEq] at he1 he2
        rw [he1.1, he2.1]
      · rw [Prod.mk.injEq] at he1
        obtain ⟨rfl, rfl⟩ := he1
        simp only [pingAddr, Option.some.injEq] at hp1
        subst hp1
        exact absurd (hin k2 p2 _ hm2 hp2) hc
      · rw [Prod.mk.injEq] at he2
        obtain ⟨rfl, rfl⟩ := he2
        simp only [pingAddr, Option.some.injEq] at hp2
        subst hp2
        exact absurd (hin k1 p1 _ hm1 hp1) hc
      · exact hun k1 p1 k2 p2 a hm1 hm2 hp1 hp2

theorem psinv_ping_request (st : PingStore) (src : RequestSource)
    (t : SocketAddr) (h : PSInv st) : PSInv (st.ping_request src t).2 := by
  obtain ⟨hnd, hbd, hin, hun⟩ := h
  refine ⟨keysA_nodup_insertA hnd, ?_, ?_, ?_⟩
  · intro k p hkp
    rcases mem_insertA.mp hkp with heq | ⟨hmem, _⟩
    · rw [Prod.mk.injEq] at heq
      obtain ⟨rfl, rfl⟩ := heq
      exact Nat.lt_succ_self _
    · exact Nat.lt_succ_of_lt (hbd k p hmem)
  · intro k p a hkp hpa
    rcases mem_insertA.mp hkp with heq | ⟨hmem, _⟩
    · rw [Prod.mk.injEq] at heq
      obtain ⟨rfl, rfl⟩ := heq
      simp [pingAddr] at hpa
    · exact hin k p a hmem hpa
  · intro k1 p1 k2 p2 a h1 h2 hp1 hp2
    rcases mem_insertA.mp h1 with he1 | ⟨hm1, _⟩ <;>
      rcases mem_insertA.mp h2 with he2 | ⟨hm2, _⟩
    · rw [Prod.mk.injEq] at he1 he2
      rw [he1.1, he2.1]
    · rw [Prod.mk.injEq] at he1
      obtain ⟨rfl, rfl⟩ := he1
      simp [pingAddr] at hp1
    · rw [Prod.mk.injEq] at he2
      obtain ⟨rfl, rfl⟩ := he2
      simp [pingAddr] at hp2
    · exact hun k1 p1 k2 p2 a hm1 hm2 hp1 hp2

theorem psinv_erase_release (st : PingStore) (q : Nat) (a : SocketAddr)
    (p0 : Ping) (hl : lookupA q st.pings = some p0) (hpa : pingAddr p0 = some a)
    (h : PSInv st) :
    PSInv { st with pings := eraseA q st.pings, current := st.current.erase a } := by
  obtain ⟨hnd, hbd, hin, hun⟩ := h
  refine ⟨keysA_nodup_eraseA hnd, ?_, ?_, ?_⟩
  · intro k p hkp
    exact hbd k p (mem_eraseA.mp hkp).1
  · intro k p a2 hkp hpa2
    obtain ⟨hmem, hne⟩ := mem_eraseA.mp hkp
    have ha2 : a2 ∈ st.current := hin k p a2 hmem hpa2
    refine Finset.mem_erase.mpr ⟨?_, ha2⟩
    intro haa
    subst haa
    exact hne (hun k p q p0 a2 hmem (mem_of_lookupA hl) hpa2 hpa)
  · intro k1 p1 k2 p2 a2 h1 h2 hp1 hp2
    exact hun k1 p1 k2 p2 a2 (mem_eraseA.mp h1).1 (mem_eraseA.mp h2).1 hp1 hp2

theorem psinv_erase (st : PingStore) (q : Nat) (h : PSInv st) :
    PSInv { st with pings := eraseA q st.pings } := by
  obtain ⟨hnd, hbd, hin, hun⟩ := h
  refine ⟨keysA_nodup_eraseA hnd, ?_, ?_, ?_⟩
  · intro k p hkp
    exact hbd k p (mem_eraseA.mp hkp).1
  · intro k p a2 hkp hpa2
    exact hin k p a2 (mem_eraseA.mp hkp).1 hpa2
  · intro k1 p1 k2 p2 a2 h1 h2 hp1 hp2
    exact hun k1 p1 k2 p2 a2 (mem_eraseA.mp h1).1 (mem_eraseA.mp h2).1 hp1 hp2

theorem psinv_ack (st : PingStore) (q : Nat) (h : PSInv st) :
    PSInv (st.ack q).2 := by
  unfold PingStore.ack
  rcases hl : lookupA q st.pings with _ | p
  · exact h
  · cases p with
    | direct a => exact psinv_erase_release st q a _ hl rfl h
    | indirect a ns => exact psinv_erase_release st q a _ hl rfl h
    | request src b => exact psinv_erase st q h

theorem psinv_nack (st : PingStore) (q : Nat) (sender : SocketAddr)
    (h : PSInv st) : PSInv (st.nack q sender).2 := by
  unfold PingStore.nack
  rcases hl : lookupA q st.pings with _ | p
  · exact h
  · cases p with
    | direct a => exact h
    | request src b => exact h
    | indirect a ns =>
      dsimp only
      by_cases hx : sender ∈ ns
      · rw [if_pos hx]
        exact h
      · rw [if_neg hx]
        obtain ⟨hnd, hbd, hin, hun⟩ := h
        have hq : q < st.sequence := hbd q _ (mem_of_lookupA hl)
        have hac : a ∈ st.current := hin q _ a (mem_of_lookupA hl) rfl
        refine ⟨keysA_nodup_insertA hnd, ?_, ?_, ?_⟩
        · intro k p hkp
          rcases mem_insertA.mp hkp with heq | ⟨hmem, _⟩
          · rw [Prod.mk.injEq] at heq
            rw [heq.1]
            exact hq
          · exact hbd k p hmem
        · intro k p a2 hkp hpa2
          rcases mem_insertA.mp hkp with heq | ⟨hmem, _⟩
          · rw [Prod.mk.injEq] at heq
            obtain ⟨rfl, rfl⟩ := heq
            simp only [pingAddr, Option.some.injEq] at hpa2
            subst hpa2
            exact hac
          · exact hin k p a2 hmem hpa2
        · intro k1 p1 k2 p2 a2 h1 h2 hp1 hp2
          rcases mem_insertA.mp h1 with he1 | ⟨hm1, hne1⟩ <;>
            rcases mem_insertA.mp h2 with he2 | ⟨hm2, hne2⟩
          · rw [Prod.mk.injEq] at he1 he2
            rw [he1.1, he2.1]
          · rw [Prod.mk.injEq] at he1
            obtain ⟨rfl, rfl⟩ := he1
            simp only [pingAddr, Option.some.injEq] at hp1
            subst hp1
            exact absurd (hun k2 p2 _ _ _ hm2 (mem_of_lookupA hl) hp2 rfl) hne2
          · rw [Prod.mk.injEq] at he2
            obtain ⟨rfl, rfl⟩ := he2
            simp only [pingAddr, Option.some.injEq] at hp2
            subst hp2
            exact absurd (hun k1 p1 _ _ _ hm1 (mem_of_lookupA hl) hp1 rfl) hne1
          · exact hun k1 p1 k2 p2 a2 hm1 hm2 hp1 hp2

theorem psinv_fail (st : PingStore) (q : Nat) (h : PSInv st) :
    PSInv (st.fail q).2 := by
  unfold PingStore.fail
  rcases hl : lookupA q st.pings with _ | p
  · exact h
  · cases p with
    | indirect a ns => exact psinv_erase_release st q a _ hl rfl h
    | request src b =>
      cases b with
      | true => exact psinv_erase st q h
      | false =>
        obtain ⟨hnd, hbd, hin, hun⟩ := h
        have hq : q < st.sequence := hbd q _ (mem_of_lookupA hl)
        refine ⟨keysA_nodup_insertA (keysA_nodup_eraseA hnd), ?_, ?_, ?_⟩
        · intro k p hkp
          rcases mem_insertA.mp hkp with heq | ⟨hmem, _⟩
          · rw [Prod.mk.injEq] at heq
            rw [heq.1]
            exact hq
          · exact hbd k p (mem_eraseA.mp hmem).1
        · intro k p a2 hkp hpa2
          rcases mem_insertA.mp hkp with heq | ⟨hmem, _⟩
          · rw [Prod.mk.injEq] at heq
            obtain ⟨rfl, rfl⟩ := heq
            simp [pingAddr] at hpa2
          · exact hin k p a2 (mem_eraseA.mp hmem).1 hpa2
        · intro k1 p1 k2 p2 a2 h1 h2 hp1 hp2
          rcases mem_insertA.mp h1 with he1 | ⟨hm1, _⟩ <;>
            rcases mem_insertA.mp h2 with he2 | ⟨hm2, _⟩
          · rw [Prod.mk.injEq] at he1 he2
            rw [he1.1, he2.1]
          · rw [Prod.mk.injEq] at he1
            obtain ⟨rfl, rfl⟩ := he1
            simp [pingAddr] at hp1
          · rw [Prod.mk.injEq] at he2
            obtain ⟨rfl, rfl⟩ := he2
            simp [pingAddr] at hp2
          · exact hun k1 p1 k2 p2 a2 (mem_eraseA.mp hm1).1 (mem_eraseA.mp hm2).1 hp1 hp2
    | direct a =>
      obtain ⟨hnd, hbd, hin, hun⟩ := h
      have hq : q < st.sequence := hbd q _ (mem_of_lookupA hl)
      have hac : a ∈ st.current := hin q _ a (mem_of_lookupA hl) rfl
      refine ⟨keysA_nodup_insertA (keysA_nodup_eraseA hnd), ?_, ?_, ?_⟩
      · intro k p hkp
        rcases mem_insertA.mp hkp with heq | ⟨hmem, _⟩
        · rw [Prod.mk.injEq] at heq
          rw [heq.1]
          exact Nat.lt_succ_self _
        · exact Nat.lt_succ_of_lt (hbd k p (mem_eraseA.mp hmem).1)
      · intro k p a2 hkp hpa2
        rcases mem_insertA.mp hkp with heq | ⟨hmem, _⟩
        · rw [Prod.mk.injEq] at heq
          obtain ⟨rfl, rfl⟩ := heq
          simp only [pingAddr, Option.some.injEq] at hpa2
          subst hpa2
          exact hac
        · exact hin k p a2 (mem_eraseA.mp hmem).1 hpa2
      · intro k1 p1 k2 p2 a2 h1 h2 hp1 hp2
        rcases mem_insertA.mp h1 with he1 | ⟨hm1, hne1⟩ <;>
          rcases mem_insertA.mp h2 with he2 | ⟨hm2, hne2⟩
        · rw [Prod.mk.injEq] at he1 he2
          rw [he1.1, he2.1]
        · rw [Prod.mk.injEq] at he1
          obtain ⟨rfl, rfl⟩ := he1
          simp only [pingAddr, Option.some.injEq] at hp1
          subst hp1
          obtain ⟨hm2e, hne2e⟩ := mem_eraseA.mp hm2
          exact absurd (hun k2 p2 _ _ _ hm2e (mem_of_lookupA hl) hp2 rfl) hne2e
        · rw [Prod.mk.injEq] at he2
          obtain ⟨rfl, rfl⟩ := he2
          simp only [pingAddr, Option.some.injEq] at hp2
          subst hp2
          obtain ⟨hm1e, hne1e⟩ := mem_eraseA.mp hm1
          exact absurd (hun k1 p1 _ _ _ hm1e (mem_of_lookupA hl) hp1 rfl) hne1e
        · exact hun k1 p1 k2 p2 a2 (mem_eraseA.mp hm1).1 (mem_eraseA.mp hm2).1 hp1 hp2

theorem psinv_clear (st : PingStore) (h : PSInv st) : PSInv st.clear := by
  refine ⟨by simp [keysA, PingStore.clear], ?_, ?_, ?_⟩ <;> intros <;>
    simp_all [PingStore.clear]

theorem reachable_psinv {st : PingStore} (h : st.Reachable) : PSInv st := by
  induction h with
  | empty => exact psinv_empty
  | ping st addr _ ih => exact psinv_ping st addr ih
  | ping_request st src t _ ih => exact psinv_ping_request st src t ih
  | ack st q _ ih => exact psinv_ack st q ih
  | nack st q sender _ ih => exact psinv_nack st q sender ih
  | fail st q _ ih => exact psinv_fail st q ih
  | clear st _ ih => exact psinv_clear st ih

theorem psinv_ackAssertOk (st : PingStore) (h : PSInv st) (q : Nat) :
    st.ackAssertOk q = true := by
  unfold PingStore.ackAssertOk
  rcases hl : lookupA q st.pings with _ | p
  · rfl
  · cases p with
    | direct a =>
      simp only [decide_eq_true_eq]
      exact h.2.2.1 q _ a (mem_of_lookupA hl) rfl
    | indirect a ns =>
      simp only [decide_eq_true_eq]
      exact h.2.2.1 q _ a (mem_of_lookupA hl) rfl
    | request src b => rfl

theorem psinv_failAssertOk (st : PingStore) (h : PSInv st) (q : Nat) :
    st.failAssertOk q = true := by
  unfold PingStore.failAssertOk
  rcases hl : lookupA q st.pings with _ | p
  · rfl
  · cases p with
    | direct a => rfl
    | indirect a ns =>
      simp only [decide_eq_true_eq]
      exact h.2.2.1 q _ a (mem_of_lookupA hl) rfl
    | request src b => rfl

theorem ping_sequence_le (st : PingStore) (addr : SocketAddr) :
    st.sequence ≤ (st.ping addr).2.sequence := by
  unfold PingStore.ping
  by_cases hc : addr ∈ st.current
  · rw [if_pos hc]
  · rw [if_neg hc]
    exact Nat.le_succ _

theorem ack_sequence_le (st : PingStore) (q : Nat) :
    st.sequence ≤ (st.ack q).2.sequence := by
  unfold PingStore.ack
  rcases lookupA q st.pings with _ | p
  · exact le_refl _
  · cases p <;> exact le_refl _

theorem nack_sequence_le (st : PingStore) (q : Nat) (sender : SocketAddr) :
    st.sequence ≤ (st.nack q sender).2.sequence := by
  unfold PingStore.nack
  rcases lookupA q st.pings with _ | p
  · exact le_refl _
  · cases p with
    | direct a => exact le_refl _
    | request src b => exact le_refl _
    | indirect a ns =>
      dsimp only
      by_cases hx : sender ∈ ns
      · rw [if_pos hx]
      · rw [if_neg hx]

theorem fail_sequence_le (st : PingStore) (q : Nat) :
    st.sequence ≤ (st.fail q).2.sequence := by
  unfold PingStore.fail
  rcases lookupA q st.pings with _ | p
  · exact le_refl _
  · cases p with
    | direct a => exact Nat.le_succ _
    | indirect a ns => exact le_refl _
    | request src b => cases b <;> exact le_refl _

/-- C4: in every PingStore state reachable from the empty store, sequence
keys are unique and strictly below the counter (and every operation returns
the pre-call counter as the handed-out sequence while never decreasing the
counter, so handed-out sequences strictly increase); the address of every
stored Direct or Indirect entry is in the in-flight set, with at most one
Direct-or-Indirect entry per address; ping returns Err and leaves the store
unchanged exactly when the address is in flight, and otherwise adds it to
the in-flight set; consequently the in-flight-removal assertions in ack and
fail never fail in a reachable state. -/
theorem C4_pingstore_reachable_invariants :
    (∀ st : PingStore, st.Reachable →
      (keysA st.pings).Nodup ∧
      (∀ k p, (k, p) ∈ st.pings → k < st.sequence) ∧
      (∀ k p a, (k, p) ∈ st.pings → pingAddr p = some a → a ∈ st.current) ∧
      (∀ k1 p1 k2 p2 a, (k1, p1) ∈ st.pings → (k2, p2) ∈ st.pings →
        pingAddr p1 = some a → pingAddr p2 = some a → k1 = k2)) ∧
    (∀ (st : PingStore) (addr : SocketAddr),
      (addr ∈ st.current → st.ping addr = (.error addr, st)) ∧
      (addr ∉ st.current →
        (st.ping addr).1 = .ok ⟨st.sequence, addr⟩ ∧
        (st.ping addr).2.current = Insert.insert addr st.current ∧
        (st.ping addr).2.sequence = st.sequence + 1)) ∧
    (∀ st : PingStore, st.Reachable → ∀ q : Nat,
      st.ackAssertOk q = true ∧ st.failAssertOk q = true) ∧
    (∀ (st : PingStore) (addr : SocketAddr),
      st.sequence ≤ (st.ping addr).2.sequence) ∧
    (∀ (st : PingStore) (src : RequestSource) (t : SocketAddr),
      st.sequence ≤ (st.ping_request src t).2.sequence) ∧
    (∀ (st : PingStore) (q : Nat), st.sequence ≤ (st.ack q).2.sequence) ∧
    (∀ (st : PingStore) (q : Nat) (sender : SocketAddr),
      st.sequence ≤ (st.nack q sender).2.sequence) ∧
    (∀ (st : PingStore) (q : Nat), st.sequence ≤ (st.fail q).2.sequence) ∧
    (∀ st : PingStore, st.sequence ≤ st.clear.sequence) := by
  refine ⟨fun st h => reachable_psinv h, ?_,
    fun st h q => ⟨psinv_ackAssertOk st (reachable_psinv h) q,
      psinv_failAssertOk st (reachable_psinv h) q⟩,
    ping_sequence_le, fun st src t => Nat.le_succ _, ack_sequence_le,
    nack_sequence_le, fail_sequence_le, fun st => le_refl _⟩
  intro st addr
  constructor
  · intro hc
    unfold PingStore.ping
    rw [if_pos hc]
  · intro hc
    unfold PingStore.ping
    rw [if_neg hc]
    exact ⟨rfl, rfl, rfl⟩

/-- Witness for C4: the invariant conjuncts applied at concrete reachable
stores (the empty store, one reachable by a ping) and concrete addresses. -/
theorem C4_pingstore_reachable_invariants_witness :
    (keysA ((⟨0, [], ∅⟩ : PingStore).ping 5).2.pings).Nodup ∧
    ((⟨0, [], ∅⟩ : PingStore).ping 5).1 = .ok ⟨0, 5⟩ ∧
    ((⟨0, [], ∅⟩ : PingStore).ping 5).2.ackAssertOk 0 = true ∧
    (⟨3, [], ∅⟩ : PingStore).sequence ≤ ((⟨3, [], ∅⟩ : PingStore).fail 9).2.sequence := by
  refine ⟨?_, ?_, ?_, ?_⟩
  · exact (C4_pingstore_reachable_invariants.1 _
      (PingStore.Reachable.ping ⟨0, [], ∅⟩ 5 PingStore.Reachable.empty)).1
  · exact ((C4_pingstore_reachable_invariants.2.1 ⟨0, [], ∅⟩ 5).2 (by decide)).1
  · exact (C4_pingstore_reachable_invariants.2.2.1 _
      (PingStore.Reachable.ping ⟨0, [], ∅⟩ 5 PingStore.Reachable.empty) 0).1
  · exact C4_pingstore_reachable_invariants.2.2.2.2.2.2.2.1 ⟨3, [], ∅⟩ 9

/-! Suspicions table (suspicions.rs). -/

/-- A suspicion: the suspected incarnation and the set of accusers. -/
structure Suspicion where
  incarnation : Nat
  suspectors : Finset SocketAddr
deriving DecidableEq

/-- Result of `Suspecions::suspect` (`SuspicionResult`); `update` carries
the number of suspectors (`NonZeroUsize` modelled as `Nat`). -/
inductive SuspicionResult where
  | new
  | reset
  | update (count : Nat)
deriving DecidableEq, Repr

/-- The suspicion table (source spelling `Suspecions`). -/
structure Suspecions where
  suspicions : List (SocketAddr × Suspicion)
deriving DecidableEq

/-- Translation of `Suspecions::suspect`: create on vacant; otherwise
compare the provided incarnation with the stored one — lower is ignored,
higher resets the suspector set to the single new suspector, equal inserts
the suspector and reports the set size. -/
def Suspecions.suspect (s : Suspecions) (addr : SocketAddr) (incarnation : Nat)
    (suspector : SocketAddr) : Option SuspicionResult × Suspecions :=
  match lookupA addr s.suspicions with
  | none =>
    (some .new, ⟨insertA addr ⟨incarnation, {suspector}⟩ s.suspicions⟩)
  | some suspicion =>
    match compare incarnation suspicion.incarnation with
    | .lt => (none, s)
    | .gt => (some .reset, ⟨insertA addr ⟨incarnation, {suspector}⟩ s.suspicions⟩)
    | .eq =>
      (some (.update (Insert.insert suspector suspicion.suspectors).card),
        ⟨insertA addr ⟨suspicion.incarnation,
          Insert.insert suspector suspicion.suspectors⟩ s.suspicions⟩)

/-- C5: Suspecions::suspect implements the arbitration table — no entry:
create {incarnation, {suspector}} and return New; lower incarnation than
stored: return None and leave the table unchanged; higher: replace the
suspector set with the singleton, store the new incarnation, return Reset;
equal: insert the suspector and return Update(n) with n the resulting set
size, so a duplicate suspector does not increase the returned count. -/
theorem C5_suspicions_arbitration (s : Suspecions) (addr : SocketAddr)
    (incarnation : Nat) (suspector : SocketAddr) :
    (lookupA addr s.suspicions = none →
      s.suspect addr incarnation suspector =
        (some .new, ⟨insertA addr ⟨incarnation, {suspector}⟩ s.suspicions⟩)) ∧
    (∀ sus, lookupA addr s.suspicions = some sus →
      (incarnation < sus.incarnation →
        s.suspect addr incarnation suspector = (none, s)) ∧
      (sus.incarnation < incarnation →
        s.suspect addr incarnation suspector =
          (some .reset, ⟨insertA addr ⟨incarnation, {suspector}⟩ s.suspicions⟩)) ∧
      (incarnation = sus.incarnation →
        s.suspect addr incarnation suspector =
          (some (.update (Insert.insert suspector sus.suspectors).card),
            ⟨insertA addr ⟨sus.incarnation,
              Insert.insert suspector sus.suspectors⟩ s.suspicions⟩) ∧
        (suspector ∈ sus.suspectors →
          (Insert.insert suspector sus.suspectors).card = sus.suspectors.card))) := by
  constructor
  · intro h
    unfold Suspecions.suspect
    rw [h]
  · intro sus h
    refine ⟨?_, ?_, ?_⟩
    · intro hlt
      unfold Suspecions.suspect
      rw [h]
      dsimp only
      rw [Nat.compare_eq_lt.mpr hlt]
    · intro hgt
      unfold Suspecions.suspect
      rw [h]
      dsimp only
      rw [Nat.compare_eq_gt.mpr hgt]
    · intro heq
      constructor
      · unfold Suspecions.suspect
        rw [h]
        dsimp only
        rw [Nat.compare_eq_eq.mpr heq]
      · intro hmem
        rw [Finset.insert_eq_self.mpr hmem]

/-- Witness for C5: the stale, reset and duplicate-update cases applied at a
concrete one-entry table. -/
theorem C5_suspicions_arbitration_witness :
    (lookupA 1 [(1, (⟨5, {2}⟩ : Suspicion))] = some ⟨5, {2}⟩) ∧
    ((⟨[(1, ⟨5, {2}⟩)]⟩ : Suspecions).suspect 1 4 3 = (none, ⟨[(1, ⟨5, {2}⟩)]⟩)) ∧
    ((⟨[(1, ⟨5, {2}⟩)]⟩ : Suspecions).suspect 1 6 3 =
      (some .reset, ⟨insertA 1 ⟨6, {3}⟩ [(1, ⟨5, {2}⟩)]⟩)) ∧
    (Insert.insert (2 : SocketAddr) ({2} : Finset SocketAddr)).card = ({2} : Finset SocketAddr).card := by
  refine ⟨by decide, ?_, ?_, ?_⟩
  · exact (C5_suspicions_arbitration ⟨[(1, ⟨5, {2}⟩)]⟩ 1 4 3).2 ⟨5, {2}⟩
      (by decide) |>.1 (by decide)
  · exact (C5_suspicions_arbitration ⟨[(1, ⟨5, {2}⟩)]⟩ 1 6 3).2 ⟨5, {2}⟩
      (by decide) |>.2.1 (by decide)
  · exact ((C5_suspicions_arbitration ⟨[(1, ⟨5, {2}⟩)]⟩ 1 5 2).2 ⟨5, {2}⟩
      (by decide) |>.2.2 rfl).2 (by decide)

/-! Awareness counter (awareness.rs). -/

/-- The local health awareness counter: a score in [1, max]. -/
structure Awareness where
  max : Nat
  score : Nat
deriving DecidableEq, Repr

/-- Translation of `Awareness::new`: the counter starts at 1 (`max` is a
NonZeroU32 in the source; theorems assume 1 ≤ max). -/
def Awareness.new (max : Nat) : Awareness := ⟨max, 1⟩

/-- Translation of `Awareness::increment`: bump the score unless it has
reached max; return the new score. -/
def Awareness.increment (a : Awareness) : Nat × Awareness :=
  let a2 := if a.score < a.max then { a with score := a.score + 1 } else a
  (a2.score, a2)

/-- Translation of `Awareness::decrement`: lower the score unless it is
already 1; return the new score. -/
def Awareness.decrement (a : Awareness) : Nat × Awareness :=
  let a2 := if 1 < a.score then { a with score := a.score - 1 } else a
  (a2.score, a2)

/-- A call to the awareness counter. -/
inductive AwOp where
  | inc
  | dec
deriving DecidableEq, Repr

/-- Apply a sequence of increment/decrement calls. -/
def applyAwOps (a : Awareness) (ops : List AwOp) : Awareness :=
  ops.foldl
    (fun acc op =>
      match op with
      | .inc => acc.increment.2
      | .dec => acc.decrement.2)
    a

theorem applyAwOps_invariant (ops : List AwOp) :
    ∀ a : Awareness, 1 ≤ a.score → a.score ≤ a.max →
      1 ≤ (applyAwOps a ops).score ∧
      (applyAwOps a ops).score ≤ (applyAwOps a ops).max ∧
      (applyAwOps a ops).max = a.max := by
  induction ops with
  | nil =>
    intro a h1 h2
    exact ⟨h1, h2, rfl⟩
  | cons op t ih =>
    intro a h1 h2
    have hstep : ∀ b : Awareness,
        (applyAwOps a (op :: t)) = applyAwOps
          (match op with
           | AwOp.inc => a.increment.2
           | AwOp.dec => a.decrement.2) t := fun _ => rfl
    rw [hstep a]
    cases op with
    | inc =>
      by_cases hc : a.score < a.max <;>
        simp only [Awareness.increment, if_pos, if_neg, hc, ite_true, ite_false]
      · exact ih { a with score := a.score + 1 }
          (show 1 ≤ a.score + 1 by omega) (show a.score + 1 ≤ a.max by omega)
      · exact ih a h1 h2
    | dec =>
      by_cases hc : 1 < a.score <;>
        simp only [Awareness.decrement, if_pos, if_neg, hc, ite_true, ite_false]
      · exact ih { a with score := a.score - 1 }
          (show 1 ≤ a.score - 1 by omega) (show a.score - 1 ≤ a.max by omega)
      · exact ih a h1 h2

/-- C6: for every Awareness counter with 1 ≤ max, after any sequence of
increment/decrement calls from the initial score 1 the invariant
1 ≤ score ≤ max holds; increment raises the score by one unless it is max
(then it stays), decrement lowers it by one unless it is 1 (then it stays),
both return the new score; and with the default max = 9: nine increments
reach 9, a tenth stays at 9, eight further decrements reach 1, and a ninth
stays at 1. -/
theorem C6_awareness_bounds :
    (∀ max : Nat, 1 ≤ max → ∀ ops : List AwOp,
      1 ≤ (applyAwOps (Awareness.new max) ops).score ∧
      (applyAwOps (Awareness.new max) ops).score ≤ max) ∧
    (∀ a : Awareness, a.score < a.max →
      a.increment = (a.score + 1, { a with score := a.score + 1 })) ∧
    (∀ a : Awareness, a.score = a.max → a.increment = (a.score, a)) ∧
    (∀ a : Awareness, 1 < a.score →
      a.decrement = (a.score - 1, { a with score := a.score - 1 })) ∧
    (∀ a : Awareness, a.score = 1 → a.decrement = (a.score, a)) ∧
    (∀ a : Awareness, a.increment.1 = a.increment.2.score ∧
      a.decrement.1 = a.decrement.2.score) ∧
    ((applyAwOps (Awareness.new 9) (List.replicate 9 .inc)).score = 9 ∧
      (applyAwOps (Awareness.new 9) (List.replicate 10 .inc)).score = 9 ∧
      (applyAwOps (Awareness.new 9)
        (List.replicate 9 .inc ++ List.replicate 8 .dec)).score = 1 ∧
      (applyAwOps (Awareness.new 9)
        (List.replicate 9 .inc ++ List.replicate 9 .dec)).score = 1) := by
  refine ⟨?_, ?_, ?_, ?_, ?_, ?_, by decide, by decide, by decide, by decide⟩
  · intro max h1 ops
    have hI := applyAwOps_invariant ops (Awareness.new max) (le_refl _) h1
    have h3 : (applyAwOps (Awareness.new max) ops).max = max := hI.2.2
    have hle := hI.2.1
    rw [h3] at hle
    exact ⟨hI.1, hle⟩
  · intro a hc
    unfold Awareness.increment
    rw [if_pos hc]
  · intro a hc
    unfold Awareness.increment
    rw [if_neg (by omega)]
  · intro a hc
    unfold Awareness.decrement
    rw [if_pos hc]
  · intro a hc
    unfold Awareness.decrement
    rw [if_neg (by omega)]
  · intro a
    constructor
    · unfold Awareness.increment
      by_cases hc : a.score < a.max <;> simp [hc]
    · unfold Awareness.decrement
      by_cases hc : 1 < a.score <;> simp [hc]

/-- Witness for C6: the invariant applied at the default counter (max = 9)
with a concrete call sequence, and the step cases at concrete counters. -/
theorem C6_awareness_bounds_witness :
    (1 ≤ (applyAwOps (Awareness.new 9) [.inc, .inc, .dec]).score ∧
      (applyAwOps (Awareness.new 9) [.inc, .inc, .dec]).score ≤ 9) ∧
    (Awareness.increment ⟨9, 3⟩ = (4, ⟨9, 4⟩)) ∧
    (Awareness.increment ⟨9, 9⟩ = (9, ⟨9, 9⟩)) ∧
    (Awareness.decrement ⟨9, 3⟩ = (2, ⟨9, 2⟩)) ∧
    (Awareness.decrement ⟨9, 1⟩ = (1, ⟨9, 1⟩)) := by
  refine ⟨C6_awareness_bounds.1 9 (by decide) [.inc, .inc, .dec], ?_, ?_, ?_, ?_⟩
  · exact C6_awareness_bounds.2.1 ⟨9, 3⟩ (by decide)
  · exact C6_awareness_bounds.2.2.1 ⟨9, 9⟩ (by decide)
  · exact C6_awareness_bounds.2.2.2.1 ⟨9, 3⟩ (by decide)
  · exact C6_awareness_bounds.2.2.2.2.1 ⟨9, 1⟩ (by decide)

/-! The suspicion kill-timeout calculator (scheduler/suspicion.rs). -/

/-- Translation of `TimeoutCalculator::timeout`, with the f64 arithmetic
modelled by real arithmetic: `min` and `max` are the bounds in seconds
(`as_secs_f64`), `c` the confirming-suspector count, `k` the Lifeguard
parameter (the divisor uses `k + 1` like the source so it is never zero).
The result is the duration in whole milliseconds —
`(duration_secs * 1000).floor` — from which the code builds
`Duration::from_millis`. -/
noncomputable def TimeoutCalculator.timeout (k : Nat) (min max : ℝ) (c : Nat) : ℤ :=
  let frac := Real.logb 10 c / Real.logb 10 ((k : ℝ) + 1)
  let f := max - (max - min) * frac
  ⌊Max.max min f * 1000⌋

theorem logb_div_logb (x y : ℝ) :
    Real.logb 10 x / Real.logb 10 y = Real.log x / Real.log y := by
  unfold Real.logb
  rcases eq_or_ne (Real.log y) 0 with h | h
  · simp [h]
  · have h10 : Real.log 10 ≠ 0 := ne_of_gt (Real.log_pos (by norm_num))
    field_simp

theorem timeout_def (k : Nat) (min max : ℝ) (c : Nat) :
    TimeoutCalculator.timeout k min max c =
      ⌊Max.max min (max - (max - min) * (Real.log c / Real.log ((k : ℝ) + 1))) * 1000⌋ := by
  unfold TimeoutCalculator.timeout
  rw [logb_div_logb]

theorem timeout_2_30 (c : Nat) : TimeoutCalculator.timeout 3 2 30 c =
    ⌊Max.max 2 (30 - 28 * (Real.log c / Real.log 4)) * 1000⌋ := by
  rw [timeout_def]
  norm_num

theorem log_four_pos : (0 : ℝ) < Real.log 4 := Real.log_pos (by norm_num)

theorem timeout_2_30_val1 : TimeoutCalculator.timeout 3 2 30 1 = 30000 := by
  rw [timeout_2_30]
  rw [show ((1:Nat) : ℝ) = (1:ℝ) by norm_num, Real.log_one]
  rw [show (0:ℝ) / Real.log 4 = 0 by norm_num]
  rw [show (30:ℝ) - 28 * 0 = 30 by norm_num]
  rw [show Max.max (2:ℝ) 30 = 30 by norm_num]
  rw [show (30:ℝ) * 1000 = ((30000:ℤ) : ℝ) by norm_num, Int.floor_intCast]

theorem timeout_2_30_val2 : TimeoutCalculator.timeout 3 2 30 2 = 16000 := by
  rw [timeout_2_30]
  have hl4 : Real.log 4 = 2 * Real.log 2 := by
    rw [show (4:ℝ) = 2 ^ (2:Nat) by norm_num, Real.log_pow]
    push_cast
    ring
  have hl2 : Real.log 2 ≠ 0 := ne_of_gt (Real.log_pos (by norm_num))
  have hfrac : Real.log 2 / Real.log 4 = 1 / 2 := by
    rw [hl4]
    field_simp
    ring
  rw [show ((2:Nat) : ℝ) = (2:ℝ) by norm_num, hfrac]
  norm_num

set_option exponentiation.threshold 40000 in
set_option maxRecDepth 4000 in
theorem pow_4_22189_lt_pow_3_28000 : (4:Nat)^22189 < 3^28000 := by decide

set_option exponentiation.threshold 40000 in
set_option maxRecDepth 4000 in
theorem pow_3_28000_le_pow_4_22190 : (3:Nat)^28000 ≤ 4^22190 := by decide

theorem timeout_2_30_val3 : TimeoutCalculator.timeout 3 2 30 3 = 7810 := by
  rw [timeout_2_30]
  rw [show ((3:Nat) : ℝ) = (3:ℝ) by norm_num]
  have hle : Real.log 3 ≤ Real.log 4 := Real.log_le_log (by norm_num) (by norm_num)
  have hfge : (2:ℝ) ≤ 30 - 28 * (Real.log 3 / Real.log 4) := by
    have hfrac_le : Real.log 3 / Real.log 4 ≤ 1 := (div_le_one log_four_pos).mpr hle
    nlinarith
  rw [max_eq_right hfge]
  have hr1 : ((4:ℝ))^(22189:Nat) < (3:ℝ)^(28000:Nat) := by
    exact_mod_cast pow_4_22189_lt_pow_3_28000
  have hr2 : ((3:ℝ))^(28000:Nat) ≤ (4:ℝ)^(22190:Nat) := by
    exact_mod_cast pow_3_28000_le_pow_4_22190
  have hlog1 : (22189:ℝ) * Real.log 4 < 28000 * Real.log 3 := by
    have h := Real.log_lt_log (by positivity) hr1
    rw [Real.log_pow, Real.log_pow] at h
    push_cast at h
    exact h
  have hlog2 : (28000:ℝ) * Real.log 3 ≤ 22190 * Real.log 4 := by
    have h := Real.log_le_log (by positivity) hr2
    rw [Real.log_pow, Real.log_pow] at h
    push_cast at h
    exact h
  have hub : 28000 * (Real.log 3 / Real.log 4) ≤ 22190 := by
    have heq : 28000 * (Real.log 3 / Real.log 4) = 28000 * Real.log 3 / Real.log 4 := by
      ring
    rw [heq, div_le_iff log_four_pos]
    linarith
  have hlb : (22189:ℝ) < 28000 * (Real.log 3 / Real.log 4) := by
    have heq : 28000 * (Real.log 3 / Real.log 4) = 28000 * Real.log 3 / Real.log 4 := by
      ring
    rw [heq, lt_div_iff log_four_pos]
    linarith
  rw [Int.floor_eq_iff]
  constructor
  · push_cast
    nlinarith
  · push_cast
    nlinarith

theorem timeout_2_30_val4 : TimeoutCalculator.timeout 3 2 30 4 = 2000 := by
  rw [timeout_2_30]
  rw [show ((4:Nat) : ℝ) = (4:ℝ) by norm_num]
  rw [div_self (ne_of_gt log_four_pos)]
  norm_num

theorem timeout_2_30_val5 : TimeoutCalculator.timeout 3 2 30 5 = 2000 := by
  rw [timeout_2_30]
  rw [show ((5:Nat) : ℝ) = (5:ℝ) by norm_num]
  have hgt : Real.log 4 < Real.log 5 := Real.log_lt_log (by norm_num) (by norm_num)
  have hfrac : 1 < Real.log 5 / Real.log 4 := (one_lt_div log_four_pos).mpr hgt
  have hf : 30 - 28 * (Real.log 5 / Real.log 4) ≤ 2 := by nlinarith
  rw [max_eq_left hf]
  norm_num

theorem timeout_2_30_val6 : TimeoutCalculator.timeout 3 2 30 6 = 2000 := by
  rw [timeout_2_30]
  rw [show ((6:Nat) : ℝ) = (6:ℝ) by norm_num]
  have hgt : Real.log 4 < Real.log 6 := Real.log_lt_log (by norm_num) (by norm_num)
  have hfrac : 1 < Real.log 6 / Real.log 4 := (one_lt_div log_four_pos).mpr hgt
  have hf : 30 - 28 * (Real.log 6 / Real.log 4) ≤ 2 := by nlinarith
  rw [max_eq_left hf]
  norm_num

/-- C9: the suspicion kill timeout equals
max(min, max − (max − min) · (log10 c / log10 (k+1))) rounded down to whole
milliseconds (f64 arithmetic modelled by real arithmetic); for fixed
min ≤ max (with 0 ≤ min, 1 ≤ k) it is non-increasing in the
confirming-suspector count c and never falls below min; and concretely for
min = 2s, max = 30s, k = 3 the timeouts for c = 1..6 are 30s, 16s, 7810ms,
2s, 2s, 2s. -/
theorem C9_suspicion_timeout_calculator :
    (∀ (k : Nat) (min max : ℝ) (c1 c2 : Nat),
      1 ≤ k → 0 ≤ min → min ≤ max → 1 ≤ c1 → c1 ≤ c2 →
      TimeoutCalculator.timeout k min max c2 ≤ TimeoutCalculator.timeout k min max c1) ∧
    (∀ (k : Nat) (min max : ℝ) (c : Nat),
      ⌊min * 1000⌋ ≤ TimeoutCalculator.timeout k min max c) ∧
    (TimeoutCalculator.timeout 3 2 30 1 = 30000 ∧
      TimeoutCalculator.timeout 3 2 30 2 = 16000 ∧
      TimeoutCalculator.timeout 3 2 30 3 = 7810 ∧
      TimeoutCalculator.timeout 3 2 30 4 = 2000 ∧
      TimeoutCalculator.timeout 3 2 30 5 = 2000 ∧
      TimeoutCalculator.timeout 3 2 30 6 = 2000) := by
  refine ⟨?_, ?_, timeout_2_30_val1, timeout_2_30_val2, timeout_2_30_val3,
    timeout_2_30_val4, timeout_2_30_val5, timeout_2_30_val6⟩
  · intro k mn mx c1 c2 hk hmn hmnmx hc1 hc12
    rw [timeout_def, timeout_def]
    apply Int.floor_le_floor
    apply mul_le_mul_of_nonneg_right _ (by norm_num : (0:ℝ) ≤ 1000)
    apply max_le_max (le_refl mn)
    apply sub_le_sub_left
    apply mul_le_mul_of_nonneg_left _ (sub_nonneg.mpr hmnmx)
    have hkpos : (0:ℝ) < Real.log ((k:ℝ) + 1) := by
      apply Real.log_pos
      have : (1:ℝ) ≤ (k:ℝ) := by exact_mod_cast hk
      linarith
    apply (div_le_div_right hkpos).mpr
    apply Real.log_le_log
    · have : (1:ℝ) ≤ (c1:ℝ) := by exact_mod_cast hc1
      linarith
    · exact_mod_cast hc12
  · intro k mn mx c
    rw [timeout_def]
    exact Int.floor_le_floor (mul_le_mul_of_nonneg_right (le_max_left _ _)
      (by norm_num))

/-- Witness for C9: monotonicity applied at (k, min, max) = (3, 2, 30) and
c = 2 ≤ 5, and the lower bound applied at c = 5. -/
theorem C9_suspicion_timeout_calculator_witness :
    ((1:Nat) ≤ 3 ∧ (0:ℝ) ≤ 2 ∧ (2:ℝ) ≤ 30 ∧ (1:Nat) ≤ 2 ∧ (2:Nat) ≤ 5 ∧
      TimeoutCalculator.timeout 3 2 30 5 ≤ TimeoutCalculator.timeout 3 2 30 2) ∧
    ⌊(2:ℝ) * 1000⌋ ≤ TimeoutCalculator.timeout 3 2 30 5 := by
  refine ⟨⟨by norm_num, by norm_num, by norm_num, by norm_num, by norm_num, ?_⟩, ?_⟩
  · exact C9_suspicion_timeout_calculator.1 3 2 30 2 5 (by norm_num) (by norm_num)
      (by norm_num) (by norm_num) (by norm_num)
  · exact C9_suspicion_timeout_calculator.2.1 3 2 30 5

end Swimmers
